import Mathlib

/-!
# Verification of the AMC BER playground simulation core

Shallow embedding of `src/ber.cpp` and `src/coding.cpp` (modulator,
demodulator, convolutional encoder, Viterbi decoder, BER drivers), with
theorems settling the frozen claims about the natural-language spec.

Modelling conventions:

* IEEE-754 `double` values are modelled as exact rationals `ℚ`.  The two
  constellation-scale constants are the exact decimal literals appearing in
  the source (`M_SQRT2_INV`, `M_SQRT10_INV`); arithmetic on them is exact,
  so `(a * s) / s = a` holds just as the hard-decision code paths rely on.
* C `int` / `long long` are modelled as `ℤ`.  The explicit narrowing
  conversion (`static_cast<int>(num_bits)` in `compute_ber_coded`) and the
  driver's 32-bit `coded_len` arithmetic are modelled by `wrap32`
  (two's-complement wrap-around: defined by C++20 for the conversion,
  and the behaviour every mainstream compiler gives the — formally UB —
  signed overflow).  `%` on negative operands is C truncated division,
  i.e. `Int.tmod`.
* Randomness: every call `dist(gen)` to a `std` distribution is modelled as
  an opaque oracle value (`bitOf i` / `noiseOf i` for the i-th draw).  The
  drivers' claims proven here are quantified over *all* oracle streams, so
  they hold in particular for the streams the real RNGs produce.
  `std::random_device` (ambient nondeterministic entropy) is modelled as an
  extra oracle argument `e`; `compute_ber` consults it, the seeded driver
  does not — that difference is exactly the content of the determinism
  claim.
* Transcendental library calls (`pow(10, ·)`, `exp`, `log`) are modelled as
  opaque function parameters: their rational output values are
  implementation-defined, and no claim below depends on more than the
  algebraic structure of the expressions built from them.
-/

/-! ## Constellation constants and mapping tables (`src/ber.cpp` 22-80) -/

/-- A `complex<double>` value: (real part, imaginary part). -/
abbrev Q2 := ℚ × ℚ

/-- `constexpr double M_SQRT2_INV = 0.7071067811865476` — the exact rational
value of the decimal literal in the source. -/
def scale_qpsk : ℚ := 7071067811865476 / 10 ^ 16

/-- `constexpr double M_SQRT10_INV = 0.31622776601683794`. -/
def scale_16qam : ℚ := 31622776601683794 / 10 ^ 17

/-- `constexpr std::array<double, 4> qam_levels = {3.0, 1.0, -3.0, -1.0}`,
indexed by `(msb<<1)|lsb`. -/
def qam_levels : ℕ → ℚ
  | 0 => 3
  | 1 => 1
  | 2 => -3
  | _ => -1

/-- `get_level(msb, lsb)`: look up `qam_levels[(msb<<1)|lsb]`. -/
def get_level (msb lsb : Bool) : ℚ :=
  qam_levels (((cond msb 1 0) <<< 1) ||| (cond lsb 1 0))

/-- `demod_level`: quantise a de-normalised 4-PAM amplitude
(`(val > 2) ? 3 : (val > 0) ? 1 : (val > -2) ? -1 : -3`). -/
def demod_level (v : ℚ) : ℚ :=
  if v > 2 then 3 else if v > 0 then 1 else if v > -2 then -1 else -3

/-- `is_valid_mod_order`: membership in `{2, 4, 16}`. -/
def is_valid_mod_order (mod_order : ℤ) : Bool :=
  mod_order = 2 || mod_order = 4 || mod_order = 16

/-- `static_cast<int>(log2(mod_order))`.  The three valid orders are given
directly (they are the only values the algorithms are entered with); other
positive values fall back to `Nat.log 2`, which agrees with the C cast of
`log2(double)` wherever the source evaluates it. -/
def bitsPerSym (mod_order : ℤ) : ℕ :=
  if mod_order = 2 then 1
  else if mod_order = 4 then 2
  else if mod_order = 16 then 4
  else Nat.log 2 mod_order.toNat

/-! ## Modulator (`modulate_impl`, `src/ber.cpp` 104-138)

Each per-order loop `for (i < num_sym) symbols[i] = f(bits[k*i], ...)` is
embedded as structural recursion consuming `k` bits per step; since
`num_sym = ⌊|bits|/k⌋`, both produce exactly the same symbol list (the
in-loop `break` bound checks can never fire because `k*i + k - 1 <
k*num_sym ≤ |bits|`). -/

/-- BPSK branch: `bits[i] ? cdouble(-1.0) : cdouble(1.0)`. -/
def bpskMap : List Bool → List Q2
  | [] => []
  | b :: r => (if b then ((-1 : ℚ), (0 : ℚ)) else (1, 0)) :: bpskMap r

/-- QPSK branch: `cdouble(bits[2i] ? -1 : 1, bits[2i+1] ? -1 : 1) * scale_qpsk`. -/
def qpskMap : List Bool → List Q2
  | b0 :: b1 :: r =>
      ((if b0 then (-1 : ℚ) else 1) * scale_qpsk,
       (if b1 then (-1 : ℚ) else 1) * scale_qpsk) :: qpskMap r
  | _ => []

/-- 16-QAM branch:
`cdouble(get_level(bits[4i], bits[4i+2]), get_level(bits[4i+1], bits[4i+3])) * scale_16qam`. -/
def qam16Map : List Bool → List Q2
  | b0 :: b1 :: b2 :: b3 :: r =>
      (get_level b0 b2 * scale_16qam, get_level b1 b3 * scale_16qam) :: qam16Map r
  | _ => []

/-- `modulate_impl` dispatch over the modulation order. -/
def modulate_impl (bits : List Bool) (mod_order : ℤ) : List Q2 :=
  if mod_order = 2 then bpskMap bits
  else if mod_order = 4 then qpskMap bits
  else if mod_order = 16 then qam16Map bits
  else List.replicate (bits.length / bitsPerSym mod_order) ((0 : ℚ), (0 : ℚ))

/-- `try_modulate`: validate the order and the minimum bit count, then call
`modulate_impl`. -/
def try_modulate (bits : List Bool) (mod_order : ℤ) : Option (List Q2) :=
  if ¬ is_valid_mod_order mod_order then none
  else if bits.length < bitsPerSym mod_order then none
  else some (modulate_impl bits mod_order)

/-- `modulate`: unwrap `try_modulate`, empty vector on failure. -/
def modulate (bits : List Bool) (mod_order : ℤ) : List Q2 :=
  (try_modulate bits mod_order).getD []

/-! ## Demodulator (`demodulate`, `src/ber.cpp` 140-194) -/

/-- BPSK: `bits[i] = (real(symbols[i]) < 0.0)`. -/
def demodBPSK : List Q2 → List Bool
  | [] => []
  | s :: r => decide (s.1 < 0) :: demodBPSK r

/-- QPSK: `y = symbols[i] / scale_qpsk; bits[2i] = re(y)<0; bits[2i+1] = im(y)<0`. -/
def demodQPSK : List Q2 → List Bool
  | [] => []
  | s :: r => decide (s.1 / scale_qpsk < 0) :: decide (s.2 / scale_qpsk < 0) :: demodQPSK r

/-- The `level_to_bits` constexpr lambda: switch on the quantised level. -/
def level_to_bits (lvl : ℚ) : Bool × Bool :=
  if lvl = 3 then (false, false)
  else if lvl = 1 then (false, true)
  else if lvl = -1 then (true, true)
  else (true, false)

/-- 16-QAM: quantise both axes of `symbols[i] / scale_16qam`, invert the Gray
table; write order per symbol is positions `4i, 4i+1, 4i+2, 4i+3` =
`(msb_re, msb_im, lsb_re, lsb_im)`. -/
def demod16 : List Q2 → List Bool
  | [] => []
  | s :: r =>
      let pre := level_to_bits (demod_level (s.1 / scale_16qam))
      let pim := level_to_bits (demod_level (s.2 / scale_16qam))
      pre.1 :: pim.1 :: pre.2 :: pim.2 :: demod16 r

/-- `demodulate` dispatch; an invalid order leaves the default-initialised
(all-`false`) bit vector. -/
def demodulate (symbols : List Q2) (mod_order : ℤ) : List Bool :=
  if mod_order = 2 then demodBPSK symbols
  else if mod_order = 4 then demodQPSK symbols
  else if mod_order = 16 then demod16 symbols
  else List.replicate (symbols.length * bitsPerSym mod_order) false

/-! ## AWGN channel, error counting, and the uncoded BER drivers
(`compute_ber` `src/ber.cpp` 219-272, `compute_ber_seeded` 275-311)

`noiseOf i` stands for the value of the i-th call `noise_dist(gen)`; the
per-symbol loop draws indices `2i` (real) and `2i+1` (imaginary). -/

/-- The noise-adding loop `s += cdouble(noise_dist(gen), noise_dist(gen))`,
with `i` the index of the current symbol. -/
def addNoiseFrom (noiseOf : ℕ → ℚ) : ℕ → List Q2 → List Q2
  | _, [] => []
  | i, s :: r =>
      (s.1 + noiseOf (2 * i), s.2 + noiseOf (2 * i + 1)) :: addNoiseFrom noiseOf (i + 1) r

def addNoise (noiseOf : ℕ → ℚ) (symbols : List Q2) : List Q2 :=
  addNoiseFrom noiseOf 0 symbols

/-- `transform_reduce(bits, rx_bits, 0, plus, not_equal_to)`: the number of
positions where the two bit lists differ. -/
def mismatches (a b : List Bool) : ℕ :=
  (List.zipWith (fun x y => x != y) a b).count true

/-- Two's-complement wrap of an integer into a 32-bit `int`
(`static_cast<int>` narrowing, C++20 semantics). -/
def wrap32 (z : ℤ) : ℤ := (z + 2 ^ 31) % 2 ^ 32 - 2 ^ 31

/-- `num_bits -= num_bits % bits_per_sym` (only when the remainder is
nonzero); C `%` is truncated division, `Int.tmod`. -/
def adjustBits (n k : ℤ) : ℤ := if n.tmod k ≠ 0 then n - n.tmod k else n

/-- `compute_ber`.  `e` models `std::random_device`: draw 0 seeds the noise
generator `gen`, draw 1 seeds `BitGenerator`'s internal engine.
`stdBit s i` / `stdNoise s i` are the i-th bit / noise values produced by the
std distributions from a generator seeded with `s` (implementation-defined,
hence opaque).  The Eb/N0-to-sigma computation only feeds the noise
distribution, so it is absorbed into the `stdNoise` oracle. -/
def computeBer (e : ℕ → ℕ) (stdBit : ℕ → ℕ → Bool) (stdNoise : ℕ → ℕ → ℚ)
    (mod_order : ℤ) (snr_db : ℚ) (num_bits : ℤ) : ℚ :=
  if ¬ (mod_order = 2 ∨ mod_order = 4 ∨ mod_order = 16) then -1
  else if snr_db < -50 ∨ 50 < snr_db then -1
  else
    let nb : ℤ := adjustBits num_bits (bitsPerSym mod_order : ℤ)
    if nb ≤ 0 then 0
    else if 100000000 < nb then -1
    else
      let bits := (List.range nb.toNat).map (stdBit (e 1))
      let symbols := modulate bits mod_order
      let noisy := addNoise (stdNoise (e 0)) symbols
      let rx := demodulate noisy mod_order
      (mismatches bits rx : ℚ) / (nb : ℚ)

/-- `compute_ber_seeded`: identical pipeline, but all randomness is drawn from
`mt19937_64 gen(seed)` — the ambient entropy source `e` is never consulted
(the argument is retained to make that independence a statable fact). -/
def computeBerSeeded (_e : ℕ → ℕ) (stdBit : ℕ → ℕ → Bool) (stdNoise : ℕ → ℕ → ℚ)
    (mod_order : ℤ) (snr_db : ℚ) (num_bits : ℤ) (seed : ℕ) : ℚ :=
  if ¬ (mod_order = 2 ∨ mod_order = 4 ∨ mod_order = 16) then -1
  else if snr_db < -50 ∨ 50 < snr_db then -1
  else
    let nb : ℤ := adjustBits num_bits (bitsPerSym mod_order : ℤ)
    if nb ≤ 0 then 0
    else if 100000000 < nb then -1
    else
      let bits := (List.range nb.toNat).map (stdBit seed)
      let symbols := modulate bits mod_order
      let noisy := addNoise (stdNoise seed) symbols
      let rx := demodulate noisy mod_order
      (mismatches bits rx : ℚ) / (nb : ℚ)

/-! ## Convolutional code trellis (`src/coding.cpp` 12-79)

The state-transition table is filled once from `convolve`/shift-register
arithmetic and read back by encoder and decoder; the embedding computes the
same quantities directly as functions of (state, input). -/

/-- `G1 = 0b1011011` (133 octal). -/
def G1 : ℕ := 91

/-- `G2 = 0b1111001` (171 octal). -/
def G2 : ℕ := 121

/-- 32-bit `__builtin_popcount`. -/
def popcount32 (n : ℕ) : ℕ := ((List.range 32).filter (fun i => n.testBit i)).length

/-- `convolve(data, gen) = popcount(data & gen) & 1`. -/
def convolve (data gen : ℕ) : ℕ := popcount32 (data &&& gen) &&& 1

/-- The 7-bit shift-register value `(input << (K-1)) | state`. -/
def shiftReg (state : ℕ) (input : Bool) : ℕ := ((cond input 1 0) <<< 6) ||| state

/-- First bit of the 2-bit branch output (`(output >> 1) & 1`, the G1 tap). -/
def outA (state : ℕ) (input : Bool) : Bool := convolve (shiftReg state input) G1 == 1

/-- Second bit of the branch output (`output & 1`, the G2 tap). -/
def outB (state : ℕ) (input : Bool) : Bool := convolve (shiftReg state input) G2 == 1

/-- `next_state = shift_reg >> 1`. -/
def nextState (state : ℕ) (input : Bool) : ℕ := shiftReg state input >>> 1

/-- The state reached by running the trellis from `state` over an input list. -/
def stateAfter (state : ℕ) (inputs : List Bool) : ℕ := inputs.foldl nextState state

/-! ## Convolutional encoder (`convolutional_encode`, `src/coding.cpp` 85-122) -/

/-- The encoding loop: per input bit emit `(output >> 1) & 1` then
`output & 1`, advancing the state. -/
def encodeFrom (state : ℕ) : List Bool → List Bool
  | [] => []
  | u :: rest => outA state u :: outB state u :: encodeFrom (nextState state u) rest

/-- `convolutional_encode`: status −1 when `info_len <= 0` (the empty list
here; null pointers have no counterpart for Lean lists); otherwise the
reported length `(info_len + (K-1)) * 2` together with the emitted bits —
the info bits followed by the `CONSTRAINT_LENGTH - 1 = 6` zero tail bits,
encoded from state 0. -/
def convolutional_encode (info_bits : List Bool) : Except ℤ (ℤ × List Bool) :=
  if info_bits.length = 0 then .error (-1)
  else .ok (((info_bits.length : ℤ) + 6) * 2,
            encodeFrom 0 (info_bits ++ List.replicate 6 false))

/-! ## Viterbi decoder (`viterbi_decode`, `src/coding.cpp` 128-193) -/

/-- `constexpr double NEG_INF = -1e30`, the unreached-state sentinel. -/
def NEG_INF : ℚ := -(10 ^ 30)

/-- Branch metric: signed correlation `±llr0 ± llr1`, sign + exactly where
the corresponding expected output bit is 1. -/
def branchMetric (l0 l1 : ℚ) (state : ℕ) (input : Bool) : ℚ :=
  (if outA state input then l0 else -l0) + (if outB state input then l1 else -l1)

/-- One (state, input) candidate of the add-compare-select: the next-stage
(metric, history) rows are updated only when the candidate metric is
strictly greater than the incumbent; the history byte is
`(state << 1) | input`. -/
def acsInput (m : ℕ → ℚ) (l0 l1 : ℚ) (state : ℕ)
    (acc : (ℕ → ℚ) × (ℕ → ℕ)) (input : Bool) : (ℕ → ℚ) × (ℕ → ℕ) :=
  let ns := nextState state input
  let nm := m state + branchMetric l0 l1 state input
  if nm > acc.1 ns then
    (Function.update acc.1 ns nm,
     Function.update acc.2 ns (2 * state + cond input 1 0))
  else acc

/-- Loop body for one predecessor state: skipped when its metric is the
`NEG_INF` sentinel, else inputs are tried in order 0 then 1. -/
def acsState (m : ℕ → ℚ) (l0 l1 : ℚ) (acc : (ℕ → ℚ) × (ℕ → ℕ)) (state : ℕ) :
    (ℕ → ℚ) × (ℕ → ℕ) :=
  if m state = NEG_INF then acc
  else [false, true].foldl (acsInput m l0 l1 state) acc

/-- One forward-pass stage over states 0..63 in ascending order; the
next-stage rows start as all-`NEG_INF` metrics and all-zero history, exactly
as allocated by the source. -/
def viterbiStage (m : ℕ → ℚ) (l0 l1 : ℚ) : (ℕ → ℚ) × (ℕ → ℕ) :=
  (List.range 64).foldl (acsState m l0 l1) (fun _ => NEG_INF, fun _ => 0)

/-- Group the received LLR list into per-stage pairs `(llr[2t], llr[2t+1])`. -/
def pairsQ : List ℚ → List (ℚ × ℚ)
  | a :: b :: r => (a, b) :: pairsQ r
  | _ => []

/-- The forward pass: every stage's history row plus the final metric row. -/
def forwardPass : (ℕ → ℚ) → List (ℚ × ℚ) → List (ℕ → ℕ) × (ℕ → ℚ)
  | m, [] => ([], m)
  | m, (l0, l1) :: rest =>
      let r := viterbiStage m l0 l1
      let fp := forwardPass r.1 rest
      (r.2 :: fp.1, fp.2)

/-- Traceback walk: history rows are supplied deepest stage first; at each
stage the recovered input bit `history & 1` is prepended to the accumulator
and the walk moves to `history >> 1`. -/
def tbAux : ℕ → List (ℕ → ℕ) → List Bool → List Bool
  | _, [], acc => acc
  | cur, h :: rest, acc => tbAux (h cur >>> 1) rest ((h cur &&& 1 == 1) :: acc)

/-- The state reached by the traceback walk (rows deepest-first). -/
def tbWalk (cur : ℕ) (rows : List (ℕ → ℕ)) : ℕ :=
  rows.foldl (fun c h => h c >>> 1) cur

/-- `viterbi_decode`: input validation (−1 zero length, −2 odd length, −3
non-positive info length; null pointers have no counterpart here), forward
pass from `path_metrics[0]` = (0 at state 0, `NEG_INF` elsewhere), traceback
from state 0 keeping the first `info_len = N - 6` recovered inputs (the tail
stages are walked but their bits discarded). -/
def viterbi_decode (received_llr : List ℚ) : Except ℤ (List Bool) :=
  if received_llr.length = 0 then .error (-1)
  else if received_llr.length % 2 ≠ 0 then .error (-2)
  else
    let numStages := received_llr.length / 2
    if numStages ≤ 6 then .error (-3)
    else
      let fp := forwardPass (Function.update (fun _ => NEG_INF) 0 0) (pairsQ received_llr)
      .ok ((tbAux 0 fp.1.reverse []).take (numStages - 6))

/-- Ideal-channel LLR list for a coded word: bit b ↦ sign (2b−1) times C
(`test_convolutional_coding` uses C = 10). -/
def idealLLR (c : ℚ) (coded : List Bool) : List ℚ :=
  coded.map (fun b => if b then c else -c)

/-- Metric accumulated by a candidate trellis path from `state` along the
supplied stage pairs. -/
def pathMetricFrom (state : ℕ) : List (ℚ × ℚ) → List Bool → ℚ
  | (l0, l1) :: Ls, u :: p =>
      branchMetric l0 l1 state u + pathMetricFrom (nextState state u) Ls p
  | _, _ => 0

/-- The enumeration-ordered list of add-compare-select candidates feeding
next-state `ns` within one stage: predecessor states ascending, input 0
before input 1, `NEG_INF` predecessors skipped; entries are (candidate
metric, history byte). -/
def candList (m : ℕ → ℚ) (l0 l1 : ℚ) (ns : ℕ) : List (ℚ × ℕ) :=
  (List.range 64).flatMap (fun q =>
    if m q = NEG_INF then []
    else [false, true].filterMap (fun u =>
      if nextState q u = ns then
        some (m q + branchMetric l0 l1 q u, 2 * q + cond u 1 0)
      else none))

/-- Strict (">") best-candidate fold: replaces the incumbent only on a
strictly greater metric, hence keeps it on ties. -/
def strictBest (init : ℚ × ℕ) (cs : List (ℚ × ℕ)) : ℚ × ℕ :=
  cs.foldl (fun acc c => if c.1 > acc.1 then c else acc) init

/-- Soundness invariant of one forward-pass stage: every non-sentinel entry
of the next-stage rows records a real transition from a non-skipped
predecessor, with consistent metric and history byte. -/
def RowSound (m : ℕ → ℚ) (l0 l1 : ℚ) (acc : (ℕ → ℚ) × (ℕ → ℕ)) : Prop :=
  ∀ ns, acc.1 ns ≠ NEG_INF →
    ∃ q u, q < 64 ∧ m q ≠ NEG_INF ∧ nextState q u = ns ∧
      acc.1 ns = m q + branchMetric l0 l1 q u ∧
      acc.2 ns = 2 * q + cond u 1 0

/-! ## Coded BER driver (`compute_ber_coded`, `src/ber.cpp` 525-676) -/

/-- Coded-path bit pairs (QPSK consumes 2 coded bits per symbol). -/
def pairsB : List Bool → List (Bool × Bool)
  | a :: b :: r => (a, b) :: pairsB r
  | _ => []

/-- Coded-path bit quadruples (16-QAM consumes 4 coded bits per symbol). -/
def quadsB : List Bool → List (Bool × Bool × Bool × Bool)
  | a :: b :: c :: d :: r => (a, b, c, d) :: quadsB r
  | _ => []

/-- 16-QAM mapping of four coded bits: `(b0,b2) → I`, `(b1,b3) → Q` via
`get_level`, scaled by `1/√10` (the source notes it matches `modulate_impl`). -/
def qam16MapCoded (b0 b1 b2 b3 : Bool) : Q2 :=
  (get_level b0 b2 * scale_16qam, get_level b1 b3 * scale_16qam)

/-- The `lse2` lambda: `m = max(a,b); m + log(exp(a-m) + exp(b-m))`. -/
def lse2 (ex lg : ℚ → ℚ) (a b : ℚ) : ℚ :=
  max a b + lg (ex (a - max a b) + ex (b - max a b))

/-- The `fill_llrs` lambda: metrics `-(x - levels[k])²/two_sigma2` over the
Gray-indexed levels (the local `levels` array repeats `qam_levels`), then
msb/lsb log-sum-exp LLRs, sign-inverted to the decoder's convention. -/
def fill_llrs (ex lg : ℚ → ℚ) (two_sigma2 x : ℚ) : ℚ × ℚ :=
  let metric : ℕ → ℚ := fun k => -((x - qam_levels k) * (x - qam_levels k)) / two_sigma2
  let l_ms0 := lse2 ex lg (metric 0) (metric 1)
  let l_ms1 := lse2 ex lg (metric 2) (metric 3)
  let l_ls0 := lse2 ex lg (metric 0) (metric 2)
  let l_ls1 := lse2 ex lg (metric 1) (metric 3)
  (-(l_ms0 - l_ms1), -(l_ls0 - l_ls1))

/-- One symbol's 16-QAM LLR emission: de-normalise both axes by dividing by
`scale_16qam`, compute per-axis LLR pairs, emit `(msb_I, msb_Q, lsb_I,
lsb_Q)`. -/
def llr16Block (ex lg : ℚ → ℚ) (n0 : ℚ) (sym : Q2) : List ℚ :=
  let fI := fill_llrs ex lg n0 (sym.1 / scale_16qam)
  let fQ := fill_llrs ex lg n0 (sym.2 / scale_16qam)
  [fI.1, fQ.1, fI.2, fQ.2]

/-- `compute_ber_coded`.  `p10` models `pow(10.0, ·)`, `ex`/`lg` model
`exp`/`log`; `bitOf i` / `noiseOf i` are the i-th draws of `bit_dist(gen)` /
`noise_dist(gen)` from `mt19937 gen(seed)` (opaque deterministic functions
of the seed).  `static_cast<int>(num_bits)` is the `wrap32` narrowing.  The
invalid-order fallback calls `compute_ber`, which returns −1 before touching
any oracle, so dummy oracles are passed there. -/
def computeBerCoded (p10 ex lg : ℚ → ℚ) (bitOf : ℕ → Bool) (noiseOf : ℕ → ℚ)
    (mod_order : ℤ) (snr_db : ℚ) (num_bits : ℤ) : ℚ :=
  if ¬ (mod_order = 2 ∨ mod_order = 4 ∨ mod_order = 16) then
    computeBer (fun _ => 0) (fun _ _ => false) (fun _ _ => 0) mod_order snr_db num_bits
  else
    let info0 : ℤ := wrap32 num_bits
    let info : ℤ := if mod_order = 16 ∧ info0.tmod 2 ≠ 0 then info0 - 1 else info0
    if mod_order = 16 ∧ info0.tmod 2 ≠ 0 ∧ info ≤ 0 then -0.15
    else if info ≤ 0 then -0.1
    else
      -- `int coded_len = 2 * (info_bits_count + constraint_tail)` is 32-bit
      -- int arithmetic: both the sum and the product wrap (signed overflow is
      -- formally UB; every mainstream compiler produces the two's-complement
      -- wrap modelled here).
      let coded_len : ℤ := wrap32 (2 * wrap32 (info + 6))
      if coded_len ≤ 0 then -0.2
      else if 200000000 < coded_len then -0.25
      else
        let orig_bits := (List.range info.toNat).map bitOf
        match convolutional_encode orig_bits with
        | .error _ => -1
        | .ok (rep, coded_bits) =>
          if rep ≠ coded_len then -1
          else
            let symbols :=
              if mod_order = 2 then
                coded_bits.map (fun b => ((if b then (-1 : ℚ) else 1), (0 : ℚ)))
              else if mod_order = 4 then
                (pairsB coded_bits).map (fun p =>
                  ((if p.1 then (-1 : ℚ) else 1) * scale_qpsk,
                   (if p.2 then (-1 : ℚ) else 1) * scale_qpsk))
              else
                (quadsB coded_bits).map (fun q => qam16MapCoded q.1 q.2.1 q.2.2.1 q.2.2.2)
            let ebno := p10 (snr_db / 10)
            let cbs : ℚ := if mod_order = 2 then 1 else if mod_order = 4 then 2 else 4
            let esno := ebno * 0.5 * cbs
            let n0 : ℚ := 1 / esno
            let noisy := addNoise noiseOf symbols
            let llr_scale : ℚ := 2 / n0
            let llr : List ℚ :=
              if mod_order = 2 then noisy.map (fun s => -s.1 * llr_scale)
              else if mod_order = 4 then
                noisy.flatMap (fun s => [-s.1 * llr_scale, -s.2 * llr_scale])
              else noisy.flatMap (llr16Block ex lg n0)
            match viterbi_decode llr with
            | .error ds => -10 - (ds : ℚ)
            | .ok decoded =>
              if decoded.length = 0 ∨ info < (decoded.length : ℤ) then -0.3
              else
                let cmp_len := min decoded.length info.toNat
                (mismatches orig_bits decoded : ℚ) / (cmp_len : ℚ)

/-! ## Spec-side 16-QAM LLR formulas (§4.6 of the spec), for the refinement
claim C5.  These follow the spec's wording; `×√10` de-normalisation is
multiplication by the reciprocal of the stored double `1/√10`. -/

/-- Spec-side `lse₂(a,b) = max(a,b) + log(1 + exp(−|a−b|))`. -/
def specLse2 (ex lg : ℚ → ℚ) (a b : ℚ) : ℚ := max a b + lg (1 + ex (-|a - b|))

/-- Spec-side per-axis LLR pair: metrics `mₖ = −(x − ℓₖ)²/N₀` over the
Gray-index-ordered levels `[+3, +1, −3, −1]`, then
`msb = −(lse₂(m₀,m₁) − lse₂(m₂,m₃))`, `lsb = −(lse₂(m₀,m₂) − lse₂(m₁,m₃))`. -/
def specAxisLLRs (ex lg : ℚ → ℚ) (n0 x : ℚ) : ℚ × ℚ :=
  let m : ℕ → ℚ := fun k => -(x - qam_levels k) ^ 2 / n0
  (-(specLse2 ex lg (m 0) (m 1) - specLse2 ex lg (m 2) (m 3)),
   -(specLse2 ex lg (m 0) (m 2) - specLse2 ex lg (m 1) (m 3)))

/-- Spec-side per-symbol emission order `(msb_I, msb_Q, lsb_I, lsb_Q)`. -/
def specLLR16Block (ex lg : ℚ → ℚ) (n0 : ℚ) (sym : Q2) : List ℚ :=
  let aI := specAxisLLRs ex lg n0 (sym.1 * scale_16qam⁻¹)
  let aQ := specAxisLLRs ex lg n0 (sym.2 * scale_16qam⁻¹)
  [aI.1, aQ.1, aI.2, aQ.2]

/-! ## Round-trip lemmas for the three modulations -/

theorem demodBPSK_bpskMap : ∀ B : List Bool, demodBPSK (bpskMap B) = B := by
  intro B
  induction B with
  | nil => rfl
  | cons b r ih =>
      cases b <;> simp [bpskMap, demodBPSK, ih]

theorem scale_qpsk_pos : 0 < scale_qpsk := by norm_num [scale_qpsk]

theorem scale_16qam_pos : 0 < scale_16qam := by norm_num [scale_16qam]

theorem demodQPSK_qpskMap : ∀ B : List Bool, 2 ∣ B.length →
    demodQPSK (qpskMap B) = B
  | [], _ => rfl
  | [b], h => by simp at h
  | b0 :: b1 :: r, h => by
      have hr : 2 ∣ r.length := by
        simpa [Nat.succ_sub_one] using (Nat.dvd_sub' h (by norm_num : (2:ℕ) ∣ 2))
      have hs := scale_qpsk_pos
      have h0 : ((if b0 then (-1:ℚ) else 1) * scale_qpsk) / scale_qpsk
          = (if b0 then (-1:ℚ) else 1) := by
        field_simp
      have h1 : ((if b1 then (-1:ℚ) else 1) * scale_qpsk) / scale_qpsk
          = (if b1 then (-1:ℚ) else 1) := by
        field_simp
      simp only [qpskMap, demodQPSK, h0, h1]
      cases b0 <;> cases b1 <;>
        simp [demodQPSK_qpskMap r hr]

theorem level_roundtrip : ∀ m l : Bool,
    level_to_bits (demod_level (get_level m l)) = (m, l) := by
  decide

theorem demod16_qam16Map : ∀ B : List Bool, 4 ∣ B.length →
    demod16 (qam16Map B) = B
  | [], _ => rfl
  | [b], h => by simp at h
  | [b0, b1], h => by simp at h; omega
  | [b0, b1, b2], h => by simp at h; omega
  | b0 :: b1 :: b2 :: b3 :: r, h => by
      have hr : 4 ∣ r.length := by
        have : r.length + 4 = (b0 :: b1 :: b2 :: b3 :: r).length := by simp
        omega
      have hs := scale_16qam_pos
      have hre : (get_level b0 b2 * scale_16qam) / scale_16qam = get_level b0 b2 := by
        field_simp
      have him : (get_level b1 b3 * scale_16qam) / scale_16qam = get_level b1 b3 := by
        field_simp
      simp only [qam16Map, demod16, hre, him]
      rw [level_roundtrip b0 b2, level_roundtrip b1 b3]
      simp [demod16_qam16Map r hr]

/-- Core round-trip fact shared by several claims: for each valid modulation
order and bit list of length divisible by the bits-per-symbol count,
demodulating the modulated list is the identity. -/
theorem mod_demod_roundtrip (mod_order : ℤ) (B : List Bool)
    (hm : mod_order = 2 ∨ mod_order = 4 ∨ mod_order = 16)
    (hd : bitsPerSym mod_order ∣ B.length) :
    demodulate (modulate B mod_order) mod_order = B := by
  rcases hm with h | h | h <;> subst h
  · -- BPSK
    by_cases hB : B.length < bitsPerSym 2
    · have : B.length = 0 := by
        have h2 : bitsPerSym 2 = 1 := by norm_num [bitsPerSym]
        rw [h2] at hB
        omega
      rw [List.length_eq_zero] at this; subst this; rfl
    · simp only [modulate, try_modulate, is_valid_mod_order]
      norm_num [hB]
      simp only [modulate_impl]
      norm_num [demodulate, demodBPSK_bpskMap]
  · by_cases hB : B.length < bitsPerSym 4
    · have : B.length = 0 := by
        have h2 : bitsPerSym 4 = 2 := by norm_num [bitsPerSym]
        rw [h2] at hB hd
        omega
      rw [List.length_eq_zero] at this; subst this; rfl
    · simp only [modulate, try_modulate, is_valid_mod_order]
      norm_num [hB]
      simp only [modulate_impl]
      norm_num [demodulate]
      exact demodQPSK_qpskMap B (by simpa [bitsPerSym] using hd)
  · by_cases hB : B.length < bitsPerSym 16
    · have : B.length = 0 := by
        have h2 : bitsPerSym 16 = 4 := by norm_num [bitsPerSym]
        rw [h2] at hB hd
        omega
      rw [List.length_eq_zero] at this; subst this; rfl
    · simp only [modulate, try_modulate, is_valid_mod_order]
      norm_num [hB]
      simp only [modulate_impl]
      norm_num [demodulate]
      exact demod16_qam16Map B (by simpa [bitsPerSym] using hd)

/-- C1: For every modulation order M in {2,4,16} and every bit sequence B
whose length is divisible by k = log2 M, demodulating the modulated sequence
returns B exactly: `demodulate(modulate(B, M), M) = B`. -/
theorem claim_C1_mod_demod_roundtrip (mod_order : ℤ) (B : List Bool)
    (hm : mod_order = 2 ∨ mod_order = 4 ∨ mod_order = 16)
    (hd : bitsPerSym mod_order ∣ B.length) :
    demodulate (modulate B mod_order) mod_order = B :=
  mod_demod_roundtrip mod_order B hm hd

/-- C1 witness: the round-trip at M = 16 on the concrete block `[1,0,1,1]`. -/
theorem claim_C1_witness :
    ((16 : ℤ) = 2 ∨ (16 : ℤ) = 4 ∨ (16 : ℤ) = 16) ∧
    bitsPerSym 16 ∣ ([true, false, true, true] : List Bool).length ∧
    demodulate (modulate [true, false, true, true] 16) 16 = [true, false, true, true] :=
  ⟨by norm_num, by decide,
   claim_C1_mod_demod_roundtrip 16 [true, false, true, true] (by norm_num) (by decide)⟩

/-! ## Lemmas about the driver helpers -/

theorem addNoiseFrom_zero (l : List Q2) : ∀ i, addNoiseFrom (fun _ => 0) i l = l := by
  induction l with
  | nil => intro i; rfl
  | cons s r ih => intro i; simp [addNoiseFrom, ih]

theorem addNoise_zero (symbols : List Q2) : addNoise (fun _ => 0) symbols = symbols :=
  addNoiseFrom_zero symbols 0

theorem mismatches_self (l : List Bool) : mismatches l l = 0 := by
  induction l with
  | nil => rfl
  | cons b r ih => simp [mismatches] at ih ⊢; simp [ih]

theorem mismatches_le_left (a b : List Bool) : mismatches a b ≤ a.length := by
  calc (List.zipWith (fun x y => x != y) a b).count true
      ≤ (List.zipWith (fun x y => x != y) a b).length := List.count_le_length _ _
    _ = min a.length b.length := List.length_zipWith _ _ _
    _ ≤ a.length := Nat.min_le_left _ _

/-- C3 (amended): compute_ber's result is fully determined by its
preconditions, with the 10^8 cap applying to the bit count *after* it has
been adjusted down to a multiple of k (the original claim's reading of the
cap on the raw argument fails, see the counterexample): invalid order → −1;
SNR outside [−50,50] → −1; adjusted count ≤ 0 → 0; adjusted count > 10^8 →
−1; otherwise errors/N, a value in [0,1]. -/
theorem claim_C3_compute_ber_cases (e : ℕ → ℕ) (stdBit : ℕ → ℕ → Bool)
    (stdNoise : ℕ → ℕ → ℚ) (mod_order : ℤ) (snr_db : ℚ) (num_bits : ℤ) :
    (¬ (mod_order = 2 ∨ mod_order = 4 ∨ mod_order = 16) →
      computeBer e stdBit stdNoise mod_order snr_db num_bits = -1) ∧
    ((snr_db < -50 ∨ 50 < snr_db) →
      computeBer e stdBit stdNoise mod_order snr_db num_bits = -1) ∧
    ((mod_order = 2 ∨ mod_order = 4 ∨ mod_order = 16) →
      ¬ (snr_db < -50 ∨ 50 < snr_db) →
      (adjustBits num_bits (bitsPerSym mod_order : ℤ) ≤ 0 →
        computeBer e stdBit stdNoise mod_order snr_db num_bits = 0) ∧
      (100000000 < adjustBits num_bits (bitsPerSym mod_order : ℤ) →
        computeBer e stdBit stdNoise mod_order snr_db num_bits = -1) ∧
      (0 < adjustBits num_bits (bitsPerSym mod_order : ℤ) →
        adjustBits num_bits (bitsPerSym mod_order : ℤ) ≤ 100000000 →
        0 ≤ computeBer e stdBit stdNoise mod_order snr_db num_bits ∧
        computeBer e stdBit stdNoise mod_order snr_db num_bits ≤ 1)) := by
  refine ⟨?_, ?_, ?_⟩
  · intro h
    simp only [computeBer]
    rw [if_pos h]
  · intro hs
    by_cases hm : (mod_order = 2 ∨ mod_order = 4 ∨ mod_order = 16)
    · simp only [computeBer]
      rw [if_neg (not_not_intro hm), if_pos hs]
    · simp only [computeBer]
      rw [if_pos hm]
  · intro hm hs
    refine ⟨?_, ?_, ?_⟩
    · intro hle
      simp only [computeBer]
      rw [if_neg (not_not_intro hm), if_neg hs, if_pos hle]
    · intro hcap
      simp only [computeBer]
      rw [if_neg (not_not_intro hm), if_neg hs, if_neg (by omega), if_pos hcap]
    · intro hpos hcap
      simp only [computeBer]
      rw [if_neg (not_not_intro hm), if_neg hs, if_neg (by omega), if_neg (by omega)]
      set nb := adjustBits num_bits (bitsPerSym mod_order : ℤ) with hnb
      have hnbq : (0 : ℚ) < (nb : ℚ) := by exact_mod_cast hpos
      constructor
      · exact div_nonneg (by positivity) hnbq.le
      · rw [div_le_one hnbq]
        have hlen : ((List.range nb.toNat).map (stdBit (e 1))).length = nb.toNat := by
          simp
        have h1 : mismatches ((List.range nb.toNat).map (stdBit (e 1)))
            (demodulate (addNoise (stdNoise (e 0))
              (modulate ((List.range nb.toNat).map (stdBit (e 1))) mod_order)) mod_order)
            ≤ nb.toNat := by
          calc mismatches _ _ ≤ _ := mismatches_le_left _ _
            _ = nb.toNat := hlen
        calc (mismatches _ _ : ℚ) ≤ (nb.toNat : ℚ) := by exact_mod_cast h1
          _ = (nb : ℚ) := by
              rw [← Int.cast_natCast, Int.toNat_of_nonneg hpos.le]

/-- C3 counterexample: the claim "for every N_bits > 10^8 compute_ber returns
−1" fails at M = 4, N_bits = 10^8 + 1: the driver first truncates the count
to the multiple-of-k value 10^8, which passes the cap, and the simulation
runs (returning 0 with an all-zero bit stream and zero noise). -/
theorem claim_C3_counterexample :
    computeBer (fun _ => 0) (fun _ _ => false) (fun _ _ => 0) 4 0 100000001 = 0 ∧
    (100000000 : ℤ) < 100000001 ∧ (0 : ℚ) ≠ -1 := by
  refine ⟨?_, by norm_num, by norm_num⟩
  simp only [computeBer]
  rw [if_neg (by norm_num), if_neg (by norm_num)]
  have hadj : adjustBits 100000001 ((bitsPerSym 4 : ℕ) : ℤ) = 100000000 := by
    have hk : bitsPerSym 4 = 2 := by norm_num [bitsPerSym]
    rw [hk]
    norm_num [adjustBits]
    decide
  rw [hadj, if_neg (by norm_num), if_neg (by norm_num)]
  have htn : (100000000 : ℤ).toNat = 100000000 := rfl
  rw [htn]
  set bits := (List.range 100000000).map (fun _ => false) with hbits
  have hnoise : addNoise (fun _ => (0 : ℚ)) (modulate bits 4) = modulate bits 4 :=
    addNoise_zero _
  rw [hnoise]
  have hlen : bits.length = 100000000 := by
    rw [hbits, List.length_map, List.length_range]
  have hrt : demodulate (modulate bits 4) 4 = bits :=
    mod_demod_roundtrip 4 bits (by norm_num)
      (by rw [hlen]; norm_num [bitsPerSym])
  rw [hrt, mismatches_self]
  norm_num

/-- C3 amended witness: branch 1 at the invalid order M = 3. -/
theorem claim_C3_witness :
    ¬ ((3 : ℤ) = 2 ∨ (3 : ℤ) = 4 ∨ (3 : ℤ) = 16) ∧
    computeBer (fun _ => 0) (fun _ _ => false) (fun _ _ => 0) 3 0 100 = -1 :=
  ⟨by norm_num,
   (claim_C3_compute_ber_cases (fun _ => 0) (fun _ _ => false) (fun _ _ => 0)
      3 0 100).1 (by norm_num)⟩

/-- C9: compute_ber_seeded is a deterministic function of its four arguments:
all of its randomness is derived from `mt19937_64 gen(seed)` and it never
consults the ambient entropy source (`std::random_device`), so two calls with
the same (mod_order, snr_db, num_bits, seed) — here: under two arbitrary
ambient entropy streams — return the same value. -/
theorem claim_C9_seeded_deterministic (stdBit : ℕ → ℕ → Bool)
    (stdNoise : ℕ → ℕ → ℚ) (mod_order : ℤ) (snr_db : ℚ) (num_bits : ℤ)
    (seed : ℕ) (e1 e2 : ℕ → ℕ) :
    computeBerSeeded e1 stdBit stdNoise mod_order snr_db num_bits seed =
    computeBerSeeded e2 stdBit stdNoise mod_order snr_db num_bits seed := rfl

/-! ## Encoder lemmas and claim C6 -/

theorem encodeFrom_length (w : List Bool) : ∀ q, (encodeFrom q w).length = 2 * w.length := by
  induction w with
  | nil => intro q; rfl
  | cons u rest ih =>
      intro q
      simp only [encodeFrom, List.length_cons, ih, List.length_cons]
      ring

theorem nextState_lt : ∀ q, q < 64 → ∀ u : Bool, nextState q u < 64 := by decide

theorem stateAfter_cons (q : ℕ) (u : Bool) (rest : List Bool) :
    stateAfter q (u :: rest) = stateAfter (nextState q u) rest := rfl

theorem stateAfter_append (q : ℕ) (a b : List Bool) :
    stateAfter q (a ++ b) = stateAfter (stateAfter q a) b :=
  List.foldl_append _ _ _ _

theorem stateAfter_lt (w : List Bool) : ∀ q, q < 64 → stateAfter q w < 64 := by
  induction w with
  | nil => intro q h; exact h
  | cons u rest ih =>
      intro q h
      rw [stateAfter_cons]
      exact ih _ (nextState_lt q h u)

theorem tail_returns_zero : ∀ q, q < 64 → stateAfter q (List.replicate 6 false) = 0 := by
  decide

/-- C6: for info length L ≥ 1 the encoder succeeds from state 0, emits
exactly 2·(L+6) coded bits, the trellis state is back at 0 after the 6
zero-input tail steps, and the reported length equals 2·(L+6); for an empty
input (L ≤ 0) it fails with status −1 and emits nothing. -/
theorem claim_C6_encoder_shape (I : List Bool) :
    (1 ≤ I.length →
      ∃ out : List Bool,
        convolutional_encode I = .ok (2 * ((I.length : ℤ) + 6), out) ∧
        out.length = 2 * (I.length + 6) ∧
        stateAfter 0 (I ++ List.replicate 6 false) = 0) ∧
    (I.length = 0 → convolutional_encode I = .error (-1)) := by
  constructor
  · intro h
    refine ⟨encodeFrom 0 (I ++ List.replicate 6 false), ?_, ?_, ?_⟩
    · unfold convolutional_encode
      rw [if_neg (by omega), mul_comm ((I.length : ℤ) + 6) 2]
    · rw [encodeFrom_length]
      simp
    · rw [stateAfter_append]
      exact tail_returns_zero _ (stateAfter_lt I 0 (by norm_num))
  · intro h
    unfold convolutional_encode
    rw [if_pos h]

/-- C6 witness at the one-bit input `[1]`. -/
theorem claim_C6_witness :
    ∃ out : List Bool,
      convolutional_encode [true] = .ok (2 * ((([true] : List Bool).length : ℤ) + 6), out) ∧
      out.length = 2 * (([true] : List Bool).length + 6) ∧
      stateAfter 0 ([true] ++ List.replicate 6 false) = 0 :=
  (claim_C6_encoder_shape [true]).1 (by norm_num)

/-! ## Decoder boundary lemmas and claim C7 -/

theorem pairsQ_length : ∀ l : List ℚ, (pairsQ l).length = l.length / 2
  | [] => rfl
  | [_] => by simp [pairsQ]
  | a :: b :: r => by
      simp only [pairsQ, List.length_cons, pairsQ_length r]
      omega

theorem forwardPass_hist_length (L : List (ℚ × ℚ)) :
    ∀ m, (forwardPass m L).1.length = L.length := by
  induction L with
  | nil => intro m; rfl
  | cons p rest ih =>
      intro m
      obtain ⟨l0, l1⟩ := p
      simp only [forwardPass, List.length_cons, ih]

theorem tbAux_length : ∀ (rows : List (ℕ → ℕ)) (cur : ℕ) (acc : List Bool),
    (tbAux cur rows acc).length = rows.length + acc.length
  | [], _, _ => by simp [tbAux]
  | h :: rest, cur, acc => by
      simp only [tbAux, tbAux_length rest, List.length_cons]
      omega

/-- C7: the decoder fails exactly when the received length is zero, odd, or
yields a non-positive info length N − 6 (N = length/2) — null buffers having
no counterpart for Lean lists — always with a nonzero status; on failure no
bits are produced (the `Except.error` carries none), and on success the
decoded length is exactly N − 6. -/
theorem claim_C7_decoder_boundary (llr : List ℚ) :
    ((viterbi_decode llr).isOk = true ↔
      (llr.length ≠ 0 ∧ llr.length % 2 = 0 ∧ 6 < llr.length / 2)) ∧
    (∀ out, viterbi_decode llr = .ok out → out.length = llr.length / 2 - 6) ∧
    (∀ er, viterbi_decode llr = .error er → er ≠ 0) := by
  have hv : viterbi_decode llr = (if llr.length = 0 then .error (-1)
      else if llr.length % 2 ≠ 0 then .error (-2)
      else if llr.length / 2 ≤ 6 then .error (-3)
      else .ok ((tbAux 0 (forwardPass (Function.update (fun _ => NEG_INF) 0 0)
        (pairsQ llr)).1.reverse []).take (llr.length / 2 - 6))) := by
    simp only [viterbi_decode]
  rw [hv]
  by_cases h1 : llr.length = 0
  · rw [if_pos h1]
    refine ⟨iff_of_false (by decide) (by omega), by simp, ?_⟩
    intro er h
    rw [Except.error.injEq] at h
    omega
  · rw [if_neg h1]
    by_cases h2 : llr.length % 2 ≠ 0
    · rw [if_pos h2]
      refine ⟨iff_of_false (by decide) (by omega), by simp, ?_⟩
      intro er h
      rw [Except.error.injEq] at h
      omega
    · rw [if_neg h2]
      by_cases h3 : llr.length / 2 ≤ 6
      · rw [if_pos h3]
        refine ⟨iff_of_false (by decide) (by omega), by simp, ?_⟩
        intro er h
        rw [Except.error.injEq] at h
        omega
      · rw [if_neg h3]
        refine ⟨iff_of_true rfl ⟨h1, by omega, by omega⟩, ?_, by simp⟩
        intro out h
        rw [Except.ok.injEq] at h
        subst h
        rw [List.length_take, tbAux_length, List.length_reverse,
            forwardPass_hist_length, pairsQ_length]
        omega

/-- C7 witness: a length-14 all-ones LLR list (N = 7) is accepted. -/
theorem claim_C7_witness :
    (viterbi_decode (List.replicate 14 (1 : ℚ))).isOk = true :=
  (claim_C7_decoder_boundary (List.replicate 14 (1 : ℚ))).1.mpr (by norm_num)

/-! ## Add-compare-select lemmas -/

theorem acsInput_metric_le (m : ℕ → ℚ) (l0 l1 : ℚ) (q : ℕ)
    (acc : (ℕ → ℚ) × (ℕ → ℕ)) (u : Bool) (s : ℕ) :
    acc.1 s ≤ (acsInput m l0 l1 q acc u).1 s := by
  simp only [acsInput]
  split
  · rename_i hgt
    by_cases hs : s = nextState q u
    · subst hs
      exact le_of_lt (lt_of_lt_of_eq hgt
        (Function.update_same (nextState q u) (m q + branchMetric l0 l1 q u) acc.1).symm)
    · exact le_of_eq (Function.update_noteq hs _ _).symm
  · exact le_refl _

theorem acsState_metric_le (m : ℕ → ℚ) (l0 l1 : ℚ) (acc : (ℕ → ℚ) × (ℕ → ℕ))
    (q s : ℕ) : acc.1 s ≤ (acsState m l0 l1 acc q).1 s := by
  simp only [acsState]
  split
  · exact le_refl _
  · calc acc.1 s ≤ (acsInput m l0 l1 q acc false).1 s := acsInput_metric_le _ _ _ _ _ _ _
      _ ≤ (acsInput m l0 l1 q (acsInput m l0 l1 q acc false) true).1 s :=
          acsInput_metric_le _ _ _ _ _ _ _

theorem stageFold_metric_le (m : ℕ → ℚ) (l0 l1 : ℚ) :
    ∀ (qs : List ℕ) (acc : (ℕ → ℚ) × (ℕ → ℕ)) (s : ℕ),
    acc.1 s ≤ (qs.foldl (acsState m l0 l1) acc).1 s := by
  intro qs
  induction qs with
  | nil => intro acc s; exact le_refl _
  | cons q0 rest ih =>
      intro acc s
      calc acc.1 s ≤ (acsState m l0 l1 acc q0).1 s := acsState_metric_le _ _ _ _ _ _
        _ ≤ _ := ih _ s

theorem acsInput_ge_cand (m : ℕ → ℚ) (l0 l1 : ℚ) (q : ℕ)
    (acc : (ℕ → ℚ) × (ℕ → ℕ)) (u : Bool) :
    m q + branchMetric l0 l1 q u ≤ (acsInput m l0 l1 q acc u).1 (nextState q u) := by
  simp only [acsInput]
  split
  · exact le_of_eq
      (Function.update_same (nextState q u) (m q + branchMetric l0 l1 q u) acc.1).symm
  · rename_i hng
    push_neg at hng
    exact hng

theorem acsState_ge_cand (m : ℕ → ℚ) (l0 l1 : ℚ) (acc : (ℕ → ℚ) × (ℕ → ℕ))
    (q : ℕ) (u : Bool) (hq : m q ≠ NEG_INF) :
    m q + branchMetric l0 l1 q u ≤ (acsState m l0 l1 acc q).1 (nextState q u) := by
  simp only [acsState, if_neg hq]
  show m q + branchMetric l0 l1 q u ≤
    ((acsInput m l0 l1 q (acsInput m l0 l1 q acc false) true)).1 (nextState q u)
  cases u
  · calc m q + branchMetric l0 l1 q false
        ≤ (acsInput m l0 l1 q acc false).1 (nextState q false) :=
          acsInput_ge_cand _ _ _ _ _ _
      _ ≤ _ := acsInput_metric_le _ _ _ _ _ _ _
  · exact acsInput_ge_cand _ _ _ _ _ _

/-- Completeness of one stage: the next-stage metric at `nextState q u` is at
least the candidate metric of every non-skipped predecessor (q, u). -/
theorem viterbiStage_ge_cand (m : ℕ → ℚ) (l0 l1 : ℚ) (q : ℕ) (u : Bool)
    (hq64 : q < 64) (hq : m q ≠ NEG_INF) :
    m q + branchMetric l0 l1 q u ≤ (viterbiStage m l0 l1).1 (nextState q u) := by
  obtain ⟨s1, s2, hsplit⟩ := List.append_of_mem (List.mem_range.mpr hq64)
  unfold viterbiStage
  rw [hsplit, List.foldl_append, List.foldl_cons]
  calc m q + branchMetric l0 l1 q u
      ≤ (acsState m l0 l1 (s1.foldl (acsState m l0 l1)
          (fun _ => NEG_INF, fun _ => 0)) q).1 (nextState q u) :=
        acsState_ge_cand _ _ _ _ _ _ hq
    _ ≤ _ := stageFold_metric_le _ _ _ _ _ _

theorem acsInput_inv (m : ℕ → ℚ) (l0 l1 : ℚ) (q0 : ℕ) (u0 : Bool)
    (hq0 : q0 < 64) (hm : m q0 ≠ NEG_INF) (acc : (ℕ → ℚ) × (ℕ → ℕ))
    (hacc : RowSound m l0 l1 acc) : RowSound m l0 l1 (acsInput m l0 l1 q0 acc u0) := by
  intro ns hns
  simp only [acsInput] at hns ⊢
  by_cases hgt : m q0 + branchMetric l0 l1 q0 u0 > acc.1 (nextState q0 u0)
  · rw [if_pos hgt] at hns ⊢
    by_cases hs : ns = nextState q0 u0
    · subst hs
      exact ⟨q0, u0, hq0, hm, rfl, Function.update_same _ _ _,
        Function.update_same _ _ _⟩
    · have hns1 : acc.1 ns ≠ NEG_INF := by
        have he : (Function.update acc.1 (nextState q0 u0)
            (m q0 + branchMetric l0 l1 q0 u0)) ns = acc.1 ns :=
          Function.update_noteq hs _ _
        exact he ▸ hns
      obtain ⟨q, u, h1, h2, h3, h4, h5⟩ := hacc ns hns1
      exact ⟨q, u, h1, h2, h3, (Function.update_noteq hs _ _).trans h4,
        (Function.update_noteq hs _ _).trans h5⟩
  · rw [if_neg hgt] at hns ⊢
    exact hacc ns hns

theorem acsState_inv (m : ℕ → ℚ) (l0 l1 : ℚ) (q0 : ℕ) (hq0 : q0 < 64)
    (acc : (ℕ → ℚ) × (ℕ → ℕ)) (hacc : RowSound m l0 l1 acc) :
    RowSound m l0 l1 (acsState m l0 l1 acc q0) := by
  simp only [acsState]
  split
  · exact hacc
  · rename_i hm
    exact acsInput_inv m l0 l1 q0 true hq0 hm _
      (acsInput_inv m l0 l1 q0 false hq0 hm acc hacc)

/-- Soundness of one stage: every non-sentinel next-stage entry records a
genuine transition with consistent metric and history. -/
theorem viterbiStage_sound (m : ℕ → ℚ) (l0 l1 : ℚ) :
    RowSound m l0 l1 (viterbiStage m l0 l1) := by
  have main : ∀ (qs : List ℕ), (∀ x ∈ qs, x < 64) →
      ∀ acc, RowSound m l0 l1 acc →
      RowSound m l0 l1 (qs.foldl (acsState m l0 l1) acc) := by
    intro qs
    induction qs with
    | nil => intro _ acc hacc; exact hacc
    | cons q0 rest ih =>
        intro hmem acc hacc
        exact ih (fun x hx => hmem x (List.mem_cons_of_mem _ hx)) _
          (acsState_inv m l0 l1 q0 (hmem q0 (List.mem_cons_self q0 rest)) acc hacc)
  unfold viterbiStage
  exact main (List.range 64) (fun x hx => List.mem_range.mp hx) _
    (fun ns hns => absurd rfl hns)

/-! ## Path-metric equations and traceback decomposition -/

theorem pmFrom_nil (q : ℕ) (p : List Bool) : pathMetricFrom q [] p = 0 := by
  cases p <;> rfl

theorem pmFrom_nilp (q : ℕ) (Ls : List (ℚ × ℚ)) : pathMetricFrom q Ls [] = 0 := by
  cases Ls with
  | nil => rfl
  | cons pr r => obtain ⟨l0, l1⟩ := pr; rfl

theorem pmFrom_cons (q : ℕ) (l0 l1 : ℚ) (Ls : List (ℚ × ℚ)) (u : Bool) (p : List Bool) :
    pathMetricFrom q ((l0, l1) :: Ls) (u :: p) =
      branchMetric l0 l1 q u + pathMetricFrom (nextState q u) Ls p := rfl

theorem forwardPass_cons_fst (m : ℕ → ℚ) (l0 l1 : ℚ) (rest : List (ℚ × ℚ)) :
    (forwardPass m ((l0, l1) :: rest)).1 =
      (viterbiStage m l0 l1).2 :: (forwardPass (viterbiStage m l0 l1).1 rest).1 := rfl

theorem forwardPass_cons_snd (m : ℕ → ℚ) (l0 l1 : ℚ) (rest : List (ℚ × ℚ)) :
    (forwardPass m ((l0, l1) :: rest)).2 =
      (forwardPass (viterbiStage m l0 l1).1 rest).2 := rfl

theorem tbWalk_append (cur : ℕ) (A B : List (ℕ → ℕ)) :
    tbWalk cur (A ++ B) = tbWalk (tbWalk cur A) B :=
  List.foldl_append _ _ _ _

theorem tbAux_append : ∀ (A B : List (ℕ → ℕ)) (cur : ℕ) (acc : List Bool),
    tbAux cur (A ++ B) acc = tbAux (tbWalk cur A) B (tbAux cur A acc)
  | [], _, _, _ => rfl
  | h :: rest, B, cur, acc => by
      simp only [List.cons_append, tbAux]
      exact tbAux_append rest B (h cur >>> 1) _

theorem histByte_shift (q : ℕ) (u : Bool) : (2 * q + cond u 1 0) >>> 1 = q := by
  cases u <;> · simp only [Nat.shiftRight_one, cond]; omega

theorem histByte_bit (q : ℕ) (u : Bool) : ((2 * q + cond u 1 0) &&& 1 == 1) = u := by
  cases u
  · simp only [cond_false, Nat.add_zero, Nat.and_one_is_mod, Nat.mul_mod_right]
    rfl
  · simp only [cond_true, Nat.and_one_is_mod]
    have h2 : (2 * q + 1) % 2 = 1 := by omega
    rw [h2]
    rfl

/-- Soundness of the full forward pass: a non-sentinel final metric at state
`s` is witnessed by a real trellis path from some non-skipped initial state,
whose metric it equals, and the traceback from `s` reproduces exactly that
path's inputs. -/
theorem forwardPass_sound : ∀ (L : List (ℚ × ℚ)) (m : ℕ → ℚ) (s : ℕ), s < 64 →
    (forwardPass m L).2 s ≠ NEG_INF →
    ∃ q p, q < 64 ∧ m q ≠ NEG_INF ∧ p.length = L.length ∧
      (forwardPass m L).2 s = m q + pathMetricFrom q L p ∧
      stateAfter q p = s ∧
      tbWalk s (forwardPass m L).1.reverse = q ∧
      ∀ acc, tbAux s (forwardPass m L).1.reverse acc = p ++ acc := by
  intro L
  induction L with
  | nil =>
      intro m s hs h
      exact ⟨s, [], hs, h, rfl,
        by show m s = m s + pathMetricFrom s [] []; rw [pmFrom_nilp, add_zero],
        rfl, rfl, fun acc => rfl⟩
  | cons pr rest ih =>
      intro m s hs h
      obtain ⟨l0, l1⟩ := pr
      rw [forwardPass_cons_snd] at h
      obtain ⟨q1, p1, hq1lt, hq1ne, hlen, hval, hstate, hwalk, htb⟩ :=
        ih (viterbiStage m l0 l1).1 s hs h
      obtain ⟨q0, u0, hq0lt, hq0ne, hnsq, hvq, hhq⟩ :=
        viterbiStage_sound m l0 l1 q1 hq1ne
      refine ⟨q0, u0 :: p1, hq0lt, hq0ne, by simp [hlen], ?_, ?_, ?_, ?_⟩
      · rw [forwardPass_cons_snd, hval, hvq, pmFrom_cons, hnsq]
        ring
      · rw [stateAfter_cons, hnsq]
        exact hstate
      · rw [forwardPass_cons_fst, List.reverse_cons, tbWalk_append, hwalk]
        show ((viterbiStage m l0 l1).2 q1) >>> 1 = q0
        rw [hhq, histByte_shift]
      · intro acc
        rw [forwardPass_cons_fst, List.reverse_cons, tbAux_append, hwalk, htb acc]
        show ((viterbiStage m l0 l1).2 q1 &&& 1 == 1) :: (p1 ++ acc) = (u0 :: p1) ++ acc
        rw [hhq, histByte_bit]
        rfl

/-- Completeness of the forward pass along any path whose prefix metrics all
stay strictly above the `NEG_INF` sentinel: the final metric at the path's
end state is at least the path's metric. -/
theorem forwardPass_complete : ∀ (L : List (ℚ × ℚ)) (p : List Bool) (m : ℕ → ℚ) (q : ℕ),
    q < 64 → p.length = L.length →
    (∀ t, t ≤ L.length → NEG_INF < m q + pathMetricFrom q (L.take t) (p.take t)) →
    m q + pathMetricFrom q L p ≤ (forwardPass m L).2 (stateAfter q p) := by
  intro L
  induction L with
  | nil =>
      intro p m q _ hlen _
      have hp : p = [] := List.length_eq_zero.mp (by simpa using hlen)
      subst hp
      rw [pmFrom_nilp]
      show m q + 0 ≤ m q
      exact le_of_eq (add_zero _)
  | cons pr rest ih =>
      intro p m q hq64 hlen hpre
      obtain ⟨l0, l1⟩ := pr
      cases p with
      | nil => simp at hlen
      | cons u pt =>
        have hqne : m q ≠ NEG_INF := by
          have h0 := hpre 0 (by omega)
          rw [List.take_zero, List.take_zero, pmFrom_nil] at h0
          intro he
          rw [he, add_zero] at h0
          exact lt_irrefl _ h0
        have hstep : m q + branchMetric l0 l1 q u ≤
            (viterbiStage m l0 l1).1 (nextState q u) :=
          viterbiStage_ge_cand m l0 l1 q u hq64 hqne
        have hlen2 : pt.length = rest.length := by simpa using hlen
        have hpre2 : ∀ t, t ≤ rest.length →
            NEG_INF < (viterbiStage m l0 l1).1 (nextState q u) +
              pathMetricFrom (nextState q u) (rest.take t) (pt.take t) := by
          intro t ht
          have h1 := hpre (t + 1) (by simpa using Nat.succ_le_succ ht)
          rw [List.take_succ_cons, List.take_succ_cons, pmFrom_cons] at h1
          calc NEG_INF
              < m q + (branchMetric l0 l1 q u +
                  pathMetricFrom (nextState q u) (rest.take t) (pt.take t)) := h1
            _ = (m q + branchMetric l0 l1 q u) +
                  pathMetricFrom (nextState q u) (rest.take t) (pt.take t) := by ring
            _ ≤ _ := add_le_add_right hstep _
        have hrec := ih pt (viterbiStage m l0 l1).1 (nextState q u)
          (nextState_lt q hq64 u) hlen2 hpre2
        rw [pmFrom_cons, stateAfter_cons, forwardPass_cons_snd]
        calc m q + (branchMetric l0 l1 q u + pathMetricFrom (nextState q u) rest pt)
            = (m q + branchMetric l0 l1 q u) + pathMetricFrom (nextState q u) rest pt := by
              ring
          _ ≤ (viterbiStage m l0 l1).1 (nextState q u) +
                pathMetricFrom (nextState q u) rest pt := add_le_add_right hstep _
          _ ≤ _ := hrec

/-! ## Ideal-LLR path-metric bounds -/

theorem branchMetric_ideal (c : ℚ) (q : ℕ) (u : Bool) (b0 b1 : Bool) :
    branchMetric (if b0 then c else -c) (if b1 then c else -c) q u =
      (if outA q u = b0 then c else -c) + (if outB q u = b1 then c else -c) := by
  unfold branchMetric
  cases hA : outA q u <;> cases b0 <;> cases hB : outB q u <;> cases b1 <;> simp

theorem idealPairs_cons (c : ℚ) (q : ℕ) (u : Bool) (w : List Bool) :
    pairsQ (idealLLR c (encodeFrom q (u :: w))) =
      ((if outA q u then c else -c), (if outB q u then c else -c)) ::
        pairsQ (idealLLR c (encodeFrom (nextState q u) w)) := rfl

theorem ideal_term_le (c : ℚ) (hc : 0 ≤ c) (x y : Bool) :
    (if x = y then c else -c) ≤ c := by
  split
  · exact le_refl c
  · linarith

theorem pm_true_path (c : ℚ) : ∀ (w : List Bool) (q : ℕ),
    pathMetricFrom q (pairsQ (idealLLR c (encodeFrom q w))) w = 2 * c * (w.length : ℚ)
  | [], q => by
      show pathMetricFrom q [] [] = _
      rw [pmFrom_nil]
      simp
  | u :: w, q => by
      rw [idealPairs_cons, pmFrom_cons, branchMetric_ideal,
          pm_true_path c w (nextState q u)]
      simp only [if_pos rfl]
      push_cast [List.length_cons]
      ring

theorem pm_true_prefix (c : ℚ) : ∀ (w : List Bool) (q : ℕ) (t : ℕ),
    pathMetricFrom q ((pairsQ (idealLLR c (encodeFrom q w))).take t) (w.take t) =
      2 * c * ((min t w.length : ℕ) : ℚ)
  | [], q, t => by
      show pathMetricFrom q (([] : List (ℚ × ℚ)).take t) (([] : List Bool).take t) = _
      rw [List.take_nil, List.take_nil, pmFrom_nil]
      simp
  | _ :: _, _, 0 => by
      rw [List.take_zero, List.take_zero, pmFrom_nilp]
      simp
  | u :: w, q, t + 1 => by
      rw [idealPairs_cons, List.take_succ_cons, List.take_succ_cons, pmFrom_cons,
          branchMetric_ideal, pm_true_prefix c w (nextState q u) t]
      simp only [if_pos rfl, List.length_cons]
      have hmin : min (t + 1) (w.length + 1) = min t w.length + 1 := by omega
      rw [hmin]
      push_cast
      ring

theorem pm_le_ideal (c : ℚ) (hc : 0 ≤ c) : ∀ (w p : List Bool) (q q' : ℕ),
    pathMetricFrom q' (pairsQ (idealLLR c (encodeFrom q w))) p ≤ 2 * c * (w.length : ℚ)
  | [], p, q, q' => by
      show pathMetricFrom q' [] p ≤ _
      rw [pmFrom_nil]
      simp
  | u :: w, [], q, q' => by
      rw [pmFrom_nilp]
      have h1 : (0 : ℚ) ≤ 2 * c * ((u :: w).length : ℚ) :=
        mul_nonneg (mul_nonneg (by norm_num) hc) (Nat.cast_nonneg _)
      exact h1
  | u :: w, v :: p, q, q' => by
      rw [idealPairs_cons, pmFrom_cons, branchMetric_ideal]
      have t1 : (if outA q' v = outA q u then c else -c) ≤ c := ideal_term_le c hc _ _
      have t2 : (if outB q' v = outB q u then c else -c) ≤ c := ideal_term_le c hc _ _
      have t3 := pm_le_ideal c hc w p (nextState q u) (nextState q' v)
      push_cast [List.length_cons]
      have expand : 2 * c * ((w.length : ℚ) + 1) = 2 * c * (w.length : ℚ) + 2 * c := by
        ring
      rw [expand]
      linarith

theorem outA_flip : ∀ q, q < 64 → ∀ u v : Bool, u ≠ v → outA q u ≠ outA q v := by
  decide

theorem pm_lt_ideal (c : ℚ) (hc : 0 ≤ c) : ∀ (w p : List Bool) (q : ℕ), q < 64 →
    p.length = w.length → p ≠ w →
    pathMetricFrom q (pairsQ (idealLLR c (encodeFrom q w))) p ≤
      2 * c * (w.length : ℚ) - 2 * c
  | [], p, _, _, hl, hne => by
      have hp : p = [] := List.length_eq_zero.mp (by simpa using hl)
      exact absurd hp hne
  | _ :: _, [], _, _, hl, _ => by simp at hl
  | u :: w, v :: p, q, hq, hl, hne => by
      rw [idealPairs_cons, pmFrom_cons, branchMetric_ideal]
      by_cases hv : v = u
      · subst hv
        have hne2 : p ≠ w := fun h => hne (by rw [h])
        have hl2 : p.length = w.length := by simpa using hl
        have t3 := pm_lt_ideal c hc w p (nextState q v) (nextState_lt q hq v) hl2 hne2
        simp only [if_pos rfl]
        push_cast [List.length_cons]
        have expand : 2 * c * ((w.length : ℚ) + 1) - 2 * c
            = (2 * c * (w.length : ℚ) - 2 * c) + 2 * c := by ring
        rw [expand]
        linarith
      · have hA : outA q v ≠ outA q u := outA_flip q hq v u hv
        have t1 : (if outA q v = outA q u then c else -c) = -c := if_neg hA
        have t2 : (if outB q v = outB q u then c else -c) ≤ c := ideal_term_le c hc _ _
        have t3 := pm_le_ideal c hc w p (nextState q u) (nextState q v)
        rw [t1]
        push_cast [List.length_cons]
        have expand : 2 * c * ((w.length : ℚ) + 1) - 2 * c = 2 * c * (w.length : ℚ) := by
          ring
        rw [expand]
        linarith

/-! ## Ideal-channel decoder round-trip -/

theorem initRow_ne_imp (q : ℕ) :
    (Function.update (fun _ => NEG_INF) 0 (0 : ℚ)) q ≠ NEG_INF → q = 0 := by
  intro h
  by_contra hq
  exact h (Function.update_noteq hq _ _)

theorem NEG_INF_lt_zero : NEG_INF < 0 := by norm_num [NEG_INF]

/-- Shared core result: over a noiseless channel rendered as ideal LLRs of
any positive magnitude C, Viterbi decoding inverts the convolutional
encoder exactly. -/
theorem viterbi_ideal_roundtrip (c : ℚ) (hc : 0 < c) (I : List Bool) (hI : I ≠ []) :
    viterbi_decode (idealLLR c (encodeFrom 0 (I ++ List.replicate 6 false))) = .ok I := by
  have hIlen : 1 ≤ I.length := List.length_pos.mpr hI
  set w : List Bool := I ++ List.replicate 6 false with hw
  have hwlen : w.length = I.length + 6 := by simp [hw]
  set llr : List ℚ := idealLLR c (encodeFrom 0 w) with hllr
  have hcl : (encodeFrom 0 w).length = 2 * w.length := encodeFrom_length w 0
  have hllrlen : llr.length = 2 * w.length := by
    rw [hllr]
    unfold idealLLR
    rw [List.length_map]
    exact hcl
  have hLlen : (pairsQ llr).length = w.length := by
    rw [pairsQ_length, hllrlen]
    omega
  have hv : viterbi_decode llr = .ok ((tbAux 0 (forwardPass
      (Function.update (fun _ => NEG_INF) 0 0) (pairsQ llr)).1.reverse []).take
      (llr.length / 2 - 6)) := by
    simp only [viterbi_decode]
    rw [if_neg (by omega), if_neg (by omega), if_neg (by omega)]
  set m0 : ℕ → ℚ := Function.update (fun _ => NEG_INF) 0 0 with hm0
  have hm0zero : m0 0 = (0 : ℚ) := Function.update_same _ _ _
  have hsw : stateAfter 0 w = 0 := by
    rw [hw, stateAfter_append]
    exact tail_returns_zero _ (stateAfter_lt I 0 (by norm_num))
  have hpre : ∀ t, t ≤ (pairsQ llr).length →
      NEG_INF < m0 0 + pathMetricFrom 0 ((pairsQ llr).take t) (w.take t) := by
    intro t ht
    rw [hm0zero, hllr, pm_true_prefix c w 0 t]
    have h1 : (0 : ℚ) ≤ 2 * c * ((min t w.length : ℕ) : ℚ) :=
      mul_nonneg (mul_nonneg (by norm_num) hc.le) (Nat.cast_nonneg _)
    calc NEG_INF < 0 := NEG_INF_lt_zero
      _ ≤ 0 + 2 * c * ((min t w.length : ℕ) : ℚ) := by linarith
  have hcomplete := forwardPass_complete (pairsQ llr) w m0 0 (by norm_num)
    hLlen.symm hpre
  rw [hsw] at hcomplete
  have htrue : pathMetricFrom 0 (pairsQ llr) w = 2 * c * (w.length : ℚ) := by
    rw [hllr]
    exact pm_true_path c w 0
  rw [hm0zero, htrue, zero_add] at hcomplete
  have hwnonneg : (0 : ℚ) ≤ 2 * c * (w.length : ℚ) :=
    mul_nonneg (mul_nonneg (by norm_num) hc.le) (Nat.cast_nonneg _)
  have hfpne : (forwardPass m0 (pairsQ llr)).2 0 ≠ NEG_INF := by
    intro he
    rw [he] at hcomplete
    have := NEG_INF_lt_zero
    linarith
  obtain ⟨q, p, hqlt, hqne, hplen, hval, hpstate, hwalk, htb⟩ :=
    forwardPass_sound (pairsQ llr) m0 0 (by norm_num) hfpne
  have hq0 : q = 0 := initRow_ne_imp q hqne
  subst hq0
  rw [hm0zero, zero_add] at hval
  have hpw : p = w := by
    by_contra hne
    have hlt := pm_lt_ideal c hc.le w p 0 (by norm_num)
      (by rw [hplen, hLlen]) hne
    rw [← hllr] at hlt
    rw [hval] at hcomplete
    linarith
  rw [hv]
  have htake : llr.length / 2 - 6 = I.length := by omega
  rw [htb [], List.append_nil, hpw, htake, hw]
  rw [List.take_left]

/-- C2: for every info sequence I with |I| ≥ 1, encoding I, mapping each
coded bit b to an ideal LLR of sign +(2b−1) times any positive magnitude C,
and Viterbi-decoding recovers I exactly — in particular the decoded length
is |I|. -/
theorem claim_C2_encode_decode_roundtrip (c : ℚ) (I : List Bool) (rep : ℤ)
    (coded : List Bool) (hc : 0 < c) (hI : 1 ≤ I.length)
    (henc : convolutional_encode I = .ok (rep, coded)) :
    viterbi_decode (idealLLR c coded) = .ok I ∧
    ∀ out, viterbi_decode (idealLLR c coded) = .ok out → out.length = I.length := by
  have hne : I ≠ [] := by
    intro h
    rw [h] at hI
    simp at hI
  have hcd : encodeFrom 0 (I ++ List.replicate 6 false) = coded := by
    unfold convolutional_encode at henc
    rw [if_neg (by omega)] at henc
    rw [Except.ok.injEq, Prod.mk.injEq] at henc
    exact henc.2
  have hmain : viterbi_decode (idealLLR c coded) = .ok I := by
    rw [← hcd]
    exact viterbi_ideal_roundtrip c hc I hne
  refine ⟨hmain, ?_⟩
  intro out hout
  rw [hmain, Except.ok.injEq] at hout
  rw [← hout]

/-- C2 witness on the spec's test vector I = [1,0,1,1,0,1,0,0,1,1] with
C = 10. -/
theorem claim_C2_witness :
    ∃ rep coded,
      convolutional_encode
        [true, false, true, true, false, true, false, false, true, true] =
        .ok (rep, coded) ∧
      viterbi_decode (idealLLR 10 coded) =
        .ok [true, false, true, true, false, true, false, false, true, true] :=
  ⟨_, _, rfl,
    (claim_C2_encode_decode_roundtrip 10
      [true, false, true, true, false, true, false, false, true, true] _ _
      (by norm_num) (by norm_num) rfl).1⟩

/-! ## Strict-update (tie-breaking) characterisation of the ACS step -/

theorem strictBest_nil (init : ℚ × ℕ) : strictBest init [] = init := rfl

theorem strictBest_append (init : ℚ × ℕ) (A B : List (ℚ × ℕ)) :
    strictBest init (A ++ B) = strictBest (strictBest init A) B :=
  List.foldl_append _ _ _ _

theorem strictBest_cons (init : ℚ × ℕ) (c : ℚ × ℕ) (B : List (ℚ × ℕ)) :
    strictBest init (c :: B) = strictBest (if c.1 > init.1 then c else init) B := rfl

theorem strictBest_mem (init : ℚ × ℕ) :
    ∀ cs : List (ℚ × ℕ), strictBest init cs = init ∨ strictBest init cs ∈ cs := by
  intro cs
  induction cs generalizing init with
  | nil => exact Or.inl rfl
  | cons c B ih =>
      rw [strictBest_cons]
      rcases ih (if c.1 > init.1 then c else init) with h | h
      · rw [h]
        split
        · exact Or.inr (List.mem_cons_self _ _)
        · exact Or.inl rfl
      · exact Or.inr (List.mem_cons_of_mem _ h)

theorem strictBest_lt (init : ℚ × ℕ) (bound : ℚ) :
    ∀ cs : List (ℚ × ℕ), init.1 < bound → (∀ x ∈ cs, x.1 < bound) →
    (strictBest init cs).1 < bound := by
  intro cs hinit hall
  rcases strictBest_mem init cs with h | h
  · rw [h]; exact hinit
  · exact hall _ h

theorem strictBest_stays (cand : ℚ × ℕ) :
    ∀ B : List (ℚ × ℕ), (∀ x ∈ B, x.1 ≤ cand.1) → strictBest cand B = cand := by
  intro B
  induction B with
  | nil => intro _; rfl
  | cons b B ih =>
      intro hall
      rw [strictBest_cons, if_neg (by
        have := hall b (List.mem_cons_self _ _)
        exact not_lt.mpr this)]
      exact ih (fun x hx => hall x (List.mem_cons_of_mem _ hx))

theorem strictBest_first_max (init : ℚ × ℕ) (A : List (ℚ × ℕ)) (cand : ℚ × ℕ)
    (B : List (ℚ × ℕ)) (hA : ∀ x ∈ A, x.1 < cand.1) (hinit : init.1 < cand.1)
    (hB : ∀ x ∈ B, x.1 ≤ cand.1) :
    strictBest init (A ++ cand :: B) = cand := by
  rw [strictBest_append, strictBest_cons,
      if_pos (strictBest_lt init cand.1 A hinit hA)]
  exact strictBest_stays cand B hB

theorem acsInput_strictBest (m : ℕ → ℚ) (l0 l1 : ℚ) (q0 : ℕ) (u : Bool)
    (acc : (ℕ → ℚ) × (ℕ → ℕ)) (ns : ℕ) :
    ((acsInput m l0 l1 q0 acc u).1 ns, (acsInput m l0 l1 q0 acc u).2 ns)
      = strictBest (acc.1 ns, acc.2 ns)
          (if nextState q0 u = ns then
            [(m q0 + branchMetric l0 l1 q0 u, 2 * q0 + cond u 1 0)] else []) := by
  by_cases hns : nextState q0 u = ns
  · rw [if_pos hns]
    subst hns
    simp only [acsInput, strictBest, List.foldl_cons, List.foldl_nil]
    by_cases hgt : m q0 + branchMetric l0 l1 q0 u > acc.1 (nextState q0 u)
    · rw [if_pos hgt, if_pos hgt]
      exact Prod.ext (Function.update_same _ _ _) (Function.update_same _ _ _)
    · rw [if_neg hgt, if_neg hgt]
  · rw [if_neg hns, strictBest_nil]
    simp only [acsInput]
    split
    · exact Prod.ext (Function.update_noteq (fun h => hns h.symm) _ _)
        (Function.update_noteq (fun h => hns h.symm) _ _)
    · rfl

theorem acsState_strictBest (m : ℕ → ℚ) (l0 l1 : ℚ) (q0 : ℕ)
    (acc : (ℕ → ℚ) × (ℕ → ℕ)) (ns : ℕ) :
    ((acsState m l0 l1 acc q0).1 ns, (acsState m l0 l1 acc q0).2 ns)
      = strictBest (acc.1 ns, acc.2 ns)
          (if m q0 = NEG_INF then []
           else [false, true].filterMap (fun u =>
             if nextState q0 u = ns then
               some (m q0 + branchMetric l0 l1 q0 u, 2 * q0 + cond u 1 0)
             else none)) := by
  simp only [acsState]
  by_cases hm : m q0 = NEG_INF
  · rw [if_pos hm, if_pos hm, strictBest_nil]
  · rw [if_neg hm, if_neg hm]
    have step0 := acsInput_strictBest m l0 l1 q0 false acc ns
    have step1 := acsInput_strictBest m l0 l1 q0 true (acsInput m l0 l1 q0 acc false) ns
    show ((acsInput m l0 l1 q0 (acsInput m l0 l1 q0 acc false) true).1 ns,
          (acsInput m l0 l1 q0 (acsInput m l0 l1 q0 acc false) true).2 ns) = _
    rw [step1, step0]
    by_cases h0 : nextState q0 false = ns <;> by_cases h1 : nextState q0 true = ns <;>
      simp only [List.filterMap_cons, List.filterMap_nil, h0, h1, if_pos, if_neg,
        ite_true, ite_false, reduceIte] <;>
      rw [← strictBest_append] <;> rfl

theorem viterbiStage_strictBest (m : ℕ → ℚ) (l0 l1 : ℚ) (ns : ℕ) :
    ((viterbiStage m l0 l1).1 ns, (viterbiStage m l0 l1).2 ns)
      = strictBest (NEG_INF, 0) (candList m l0 l1 ns) := by
  have main : ∀ (qs : List ℕ) (acc : (ℕ → ℚ) × (ℕ → ℕ)),
      ((qs.foldl (acsState m l0 l1) acc).1 ns, (qs.foldl (acsState m l0 l1) acc).2 ns)
        = strictBest (acc.1 ns, acc.2 ns)
            (qs.flatMap (fun q =>
              if m q = NEG_INF then []
              else [false, true].filterMap (fun u =>
                if nextState q u = ns then
                  some (m q + branchMetric l0 l1 q u, 2 * q + cond u 1 0)
                else none))) := by
    intro qs
    induction qs with
    | nil => intro acc; rfl
    | cons q0 rest ih =>
        intro acc
        rw [List.foldl_cons, List.flatMap_cons, strictBest_append,
            ← acsState_strictBest m l0 l1 q0 acc ns]
        exact ih (acsState m l0 l1 acc q0)
  exact main (List.range 64) (fun _ => NEG_INF, fun _ => 0)

/-- C8: the add-compare-select updates the survivor only on a strictly
greater candidate metric — an exact tie keeps the incumbent — so the
(metric, history) pair each stage stores at every next-state equals the
strict-best fold over its candidates enumerated in order (predecessor state
ascending, input 0 before input 1, via `candList`), and such a fold returns
the earliest-enumerated candidate attaining the maximum. -/
theorem claim_C8_acs_tie_break (m : ℕ → ℚ) (l0 l1 : ℚ) :
    (∀ (q : ℕ) (acc : (ℕ → ℚ) × (ℕ → ℕ)) (u : Bool),
      ¬ (m q + branchMetric l0 l1 q u > acc.1 (nextState q u)) →
      acsInput m l0 l1 q acc u = acc) ∧
    (∀ ns, ((viterbiStage m l0 l1).1 ns, (viterbiStage m l0 l1).2 ns)
        = strictBest (NEG_INF, 0) (candList m l0 l1 ns)) ∧
    (∀ (init : ℚ × ℕ) (A : List (ℚ × ℕ)) (cand : ℚ × ℕ) (B : List (ℚ × ℕ)),
      (∀ x ∈ A, x.1 < cand.1) → init.1 < cand.1 → (∀ x ∈ B, x.1 ≤ cand.1) →
      strictBest init (A ++ cand :: B) = cand) := by
  refine ⟨?_, viterbiStage_strictBest m l0 l1, strictBest_first_max⟩
  intro q acc u hng
  simp only [acsInput, if_neg hng]

/-- C8 witness: a concrete tie — among candidates with metrics 5, 7, 7, 6
the survivor is the earlier-enumerated of the two metric-7 candidates. -/
theorem claim_C8_witness :
    strictBest (NEG_INF, 0) ([((5 : ℚ), 1)] ++ ((7 : ℚ), 2) :: [((7 : ℚ), 3), ((6 : ℚ), 4)])
      = ((7 : ℚ), 2) :=
  (claim_C8_acs_tie_break (fun _ => NEG_INF) 0 0).2.2 (NEG_INF, 0)
    [((5 : ℚ), 1)] ((7 : ℚ), 2) [((7 : ℚ), 3), ((6 : ℚ), 4)]
    (by intro x hx; rw [List.mem_singleton] at hx; rw [hx]; norm_num)
    (by norm_num [NEG_INF])
    (by
      intro x hx
      rcases List.mem_pair.mp hx with h | h
      · rw [h]
      · rw [h]; norm_num)

/-! ## Length bookkeeping for the coded driver -/

theorem addNoiseFrom_length (noiseOf : ℕ → ℚ) : ∀ (l : List Q2) (i : ℕ),
    (addNoiseFrom noiseOf i l).length = l.length
  | [], _ => rfl
  | s :: r, i => by
      simp only [addNoiseFrom, List.length_cons, addNoiseFrom_length noiseOf r]

theorem addNoise_length (noiseOf : ℕ → ℚ) (l : List Q2) :
    (addNoise noiseOf l).length = l.length := addNoiseFrom_length noiseOf l 0

theorem pairsB_length : ∀ l : List Bool, (pairsB l).length = l.length / 2
  | [] => rfl
  | [_] => by simp [pairsB]
  | _ :: _ :: r => by
      simp only [pairsB, List.length_cons, pairsB_length r]
      omega

theorem quadsB_length : ∀ l : List Bool, (quadsB l).length = l.length / 4
  | [] => rfl
  | [_] => by simp [quadsB]
  | [_, _] => by simp [quadsB]
  | [_, _, _] => by simp [quadsB]
  | _ :: _ :: _ :: _ :: r => by
      simp only [quadsB, List.length_cons, quadsB_length r]
      omega

theorem flatMap_const_length (k : ℕ) (f : Q2 → List ℚ) (h : ∀ x, (f x).length = k) :
    ∀ l : List Q2, (l.flatMap f).length = k * l.length
  | [] => by simp
  | s :: r => by
      rw [List.flatMap_cons, List.length_append, h s, flatMap_const_length k f h r,
          List.length_cons]
      ring

theorem mismatches_le_min (a b : List Bool) : mismatches a b ≤ min a.length b.length := by
  calc (List.zipWith (fun x y => x != y) a b).count true
      ≤ (List.zipWith (fun x y => x != y) a b).length := List.count_le_length _ _
    _ = min a.length b.length := List.length_zipWith _ _ _

theorem wrap32_small (z : ℤ) (h1 : -(2 ^ 31) ≤ z) (h2 : z < 2 ^ 31) : wrap32 z = z := by
  unfold wrap32
  rw [Int.emod_eq_of_lt (by omega) (by omega)]
  ring

/-- The decoder accepts any LLR list of length 2·(n+6) with n ≥ 1 and
reports exactly n decoded bits. -/
theorem decode_result_facts (llr : List ℚ) (n : ℕ) (hn : 1 ≤ n)
    (hlen : llr.length = 2 * (n + 6)) :
    ∃ out, viterbi_decode llr = .ok out ∧ out.length = n := by
  refine ⟨(tbAux 0 (forwardPass (Function.update (fun _ => NEG_INF) 0 0)
      (pairsQ llr)).1.reverse []).take (llr.length / 2 - 6), ?_, ?_⟩
  · simp only [viterbi_decode]
    rw [if_neg (by omega), if_neg (by omega), if_neg (by omega)]
  · rw [List.length_take, tbAux_length, List.length_reverse,
        forwardPass_hist_length, pairsQ_length]
    omega

theorem computeBerCoded_sim_range (p10 ex lg : ℚ → ℚ) (bitOf : ℕ → Bool)
    (noiseOf : ℕ → ℚ) (mod_order : ℤ) (snr_db : ℚ) (num_bits : ℤ)
    (hm : mod_order = 2 ∨ mod_order = 4 ∨ mod_order = 16)
    (hlow : 1 ≤ wrap32 num_bits)
    (h16 : mod_order = 16 → 2 ≤ wrap32 num_bits)
    (hcap : 2 * ((if mod_order = 16 ∧ (wrap32 num_bits).tmod 2 ≠ 0
        then wrap32 num_bits - 1 else wrap32 num_bits) + 6) ≤ 200000000) :
    0 ≤ computeBerCoded p10 ex lg bitOf noiseOf mod_order snr_db num_bits ∧
    computeBerCoded p10 ex lg bitOf noiseOf mod_order snr_db num_bits ≤ 1 := by
  rcases hm with hmv | hmv | hmv
  · subst hmv
    have hcap2 : 2 * (wrap32 num_bits + 6) ≤ 200000000 := by
      rw [if_neg (show ¬ ((2 : ℤ) = 16 ∧ (wrap32 num_bits).tmod 2 ≠ 0) by
        rintro ⟨h, _⟩; norm_num at h)] at hcap
      exact hcap
    simp only [computeBerCoded]
    norm_num
    have hw1 : wrap32 (wrap32 num_bits + 6) = wrap32 num_bits + 6 :=
      wrap32_small _ (by omega) (by omega)
    rw [hw1]
    have hw2 : wrap32 (2 * (wrap32 num_bits + 6)) = 2 * (wrap32 num_bits + 6) :=
      wrap32_small _ (by omega) (by omega)
    rw [hw2]
    rw [if_neg (show ¬ wrap32 num_bits ≤ 0 by omega),
        if_neg (show ¬ 2 * (wrap32 num_bits + 6) ≤ 0 by omega),
        if_neg (show ¬ 200000000 < 2 * (wrap32 num_bits + 6) by omega)]
    have horig : (List.map bitOf (List.range (wrap32 num_bits).toNat)).length
        = (wrap32 num_bits).toNat := by
      rw [List.length_map, List.length_range]
    have hconv : convolutional_encode (List.map bitOf (List.range (wrap32 num_bits).toNat))
        = .ok ((((wrap32 num_bits).toNat : ℤ) + 6) * 2,
            encodeFrom 0 (List.map bitOf (List.range (wrap32 num_bits).toNat)
              ++ List.replicate 6 false)) := by
      unfold convolutional_encode
      rw [if_neg (by rw [horig]; omega), horig]
    rw [hconv]
    simp only []
    have hcast : ((wrap32 num_bits).toNat : ℤ) = wrap32 num_bits :=
      Int.toNat_of_nonneg (by omega)
    rw [if_pos (show (((wrap32 num_bits).toNat : ℤ) + 6) * 2
        = 2 * (wrap32 num_bits + 6) by rw [hcast]; ring)]
    have hllrlen : (List.map (fun s : Q2 => -(s.1 * (2 / (2 * (p10 (snr_db / 10))⁻¹))))
        (addNoise noiseOf
          (List.map (fun b => ((if b = true then (-1 : ℚ) else 1), (0 : ℚ)))
            (encodeFrom 0 (List.map bitOf (List.range (wrap32 num_bits).toNat)
              ++ List.replicate 6 false))))).length
        = 2 * ((wrap32 num_bits).toNat + 6) := by
      rw [List.length_map, addNoise_length, List.length_map, encodeFrom_length,
          List.length_append, horig, List.length_replicate]
    obtain ⟨out, hout, houtlen⟩ := decode_result_facts _ ((wrap32 num_bits).toNat)
      (by omega) hllrlen
    rw [hout]
    simp only []
    rw [if_neg (show ¬ (out = [] ∨ wrap32 num_bits < (out.length : ℤ)) by
      push_neg
      constructor
      · intro h
        rw [h] at houtlen
        simp at houtlen
        omega
      · rw [houtlen, hcast])]
    rw [houtlen, min_self]
    have hden : (0 : ℚ) < ((wrap32 num_bits).toNat : ℚ) := by
      have h1 : 1 ≤ (wrap32 num_bits).toNat := by omega
      exact_mod_cast h1
    constructor
    · exact div_nonneg (Nat.cast_nonneg _) hden.le
    · rw [div_le_one hden]
      have hb : mismatches (List.map bitOf (List.range (wrap32 num_bits).toNat)) out
          ≤ (wrap32 num_bits).toNat := by
        calc mismatches (List.map bitOf (List.range (wrap32 num_bits).toNat)) out
            ≤ (List.map bitOf (List.range (wrap32 num_bits).toNat)).length :=
              mismatches_le_left _ _
          _ = (wrap32 num_bits).toNat := horig
      exact_mod_cast hb
  · subst hmv
    have hcap2 : 2 * (wrap32 num_bits + 6) ≤ 200000000 := by
      rw [if_neg (show ¬ ((4 : ℤ) = 16 ∧ (wrap32 num_bits).tmod 2 ≠ 0) by
        rintro ⟨h, _⟩; norm_num at h)] at hcap
      exact hcap
    simp only [computeBerCoded]
    norm_num
    have hw1 : wrap32 (wrap32 num_bits + 6) = wrap32 num_bits + 6 :=
      wrap32_small _ (by omega) (by omega)
    rw [hw1]
    have hw2 : wrap32 (2 * (wrap32 num_bits + 6)) = 2 * (wrap32 num_bits + 6) :=
      wrap32_small _ (by omega) (by omega)
    rw [hw2]
    rw [if_neg (show ¬ wrap32 num_bits ≤ 0 by omega),
        if_neg (show ¬ 2 * (wrap32 num_bits + 6) ≤ 0 by omega),
        if_neg (show ¬ 200000000 < 2 * (wrap32 num_bits + 6) by omega)]
    have horig : (List.map bitOf (List.range (wrap32 num_bits).toNat)).length
        = (wrap32 num_bits).toNat := by
      rw [List.length_map, List.length_range]
    have hconv : convolutional_encode (List.map bitOf (List.range (wrap32 num_bits).toNat))
        = .ok ((((wrap32 num_bits).toNat : ℤ) + 6) * 2,
            encodeFrom 0 (List.map bitOf (List.range (wrap32 num_bits).toNat)
              ++ List.replicate 6 false)) := by
      unfold convolutional_encode
      rw [if_neg (by rw [horig]; omega), horig]
    rw [hconv]
    simp only []
    have hcast : ((wrap32 num_bits).toNat : ℤ) = wrap32 num_bits :=
      Int.toNat_of_nonneg (by omega)
    rw [if_pos (show (((wrap32 num_bits).toNat : ℤ) + 6) * 2
        = 2 * (wrap32 num_bits + 6) by rw [hcast]; ring)]
    have hclen : (encodeFrom 0 (List.map bitOf (List.range (wrap32 num_bits).toNat)
        ++ List.replicate 6 false)).length = 2 * ((wrap32 num_bits).toNat + 6) := by
      rw [encodeFrom_length, List.length_append, horig, List.length_replicate]
    have hllrlen : ((addNoise noiseOf
        (List.map (fun p : Bool × Bool =>
          ((if p.1 = true then -scale_qpsk else scale_qpsk),
           (if p.2 = true then -scale_qpsk else scale_qpsk)))
          (pairsB (encodeFrom 0 (List.map bitOf (List.range (wrap32 num_bits).toNat)
            ++ List.replicate 6 false))))).flatMap
        (fun s => [-(s.1 * (2 / (1 / 2 * (2 * (p10 (snr_db / 10))⁻¹)))),
                   -(s.2 * (2 / (1 / 2 * (2 * (p10 (snr_db / 10))⁻¹))))])).length
        = 2 * ((wrap32 num_bits).toNat + 6) := by
      rw [flatMap_const_length 2
            (fun s => [-(s.1 * (2 / (1 / 2 * (2 * (p10 (snr_db / 10))⁻¹)))),
                       -(s.2 * (2 / (1 / 2 * (2 * (p10 (snr_db / 10))⁻¹))))])
            (fun _ => rfl), addNoise_length, List.length_map,
          pairsB_length, hclen]
      omega
    obtain ⟨out, hout, houtlen⟩ := decode_result_facts _ ((wrap32 num_bits).toNat)
      (by omega) hllrlen
    rw [hout]
    simp only []
    rw [if_neg (show ¬ (out = [] ∨ wrap32 num_bits < (out.length : ℤ)) by
      push_neg
      constructor
      · intro h
        rw [h] at houtlen
        simp at houtlen
        omega
      · rw [houtlen, hcast])]
    rw [houtlen, min_self]
    have hden : (0 : ℚ) < ((wrap32 num_bits).toNat : ℚ) := by
      have h1 : 1 ≤ (wrap32 num_bits).toNat := by omega
      exact_mod_cast h1
    constructor
    · exact div_nonneg (Nat.cast_nonneg _) hden.le
    · rw [div_le_one hden]
      have hb : mismatches (List.map bitOf (List.range (wrap32 num_bits).toNat)) out
          ≤ (wrap32 num_bits).toNat := by
        calc mismatches (List.map bitOf (List.range (wrap32 num_bits).toNat)) out
            ≤ (List.map bitOf (List.range (wrap32 num_bits).toNat)).length :=
              mismatches_le_left _ _
          _ = (wrap32 num_bits).toNat := horig
      exact_mod_cast hb
  · subst hmv
    simp only [computeBerCoded]
    norm_num
    set inf : ℤ := if (wrap32 num_bits).tmod 2 = 0 then wrap32 num_bits
      else wrap32 num_bits - 1 with hinf
    have h16v : 2 ≤ wrap32 num_bits := h16 rfl
    have hinf1 : 1 ≤ inf := by
      rw [hinf]
      split <;> omega
    have hinfle : inf ≤ wrap32 num_bits := by
      rw [hinf]
      split <;> omega
    have hcap16 : 2 * (inf + 6) ≤ 200000000 := by
      have heq : (if (16 : ℤ) = 16 ∧ (wrap32 num_bits).tmod 2 ≠ 0
          then wrap32 num_bits - 1 else wrap32 num_bits) = inf := by
        rw [hinf]
        by_cases h : (wrap32 num_bits).tmod 2 = 0
        · rw [if_neg (by rintro ⟨_, hh⟩; exact hh h), if_pos h]
        · rw [if_pos ⟨rfl, h⟩, if_neg h]
      rw [heq] at hcap
      exact hcap
    have hinfeven : inf % 2 = 0 := by
      rw [hinf]
      split
      · rename_i hev
        rw [Int.tmod_eq_emod (by omega) (by norm_num)] at hev
        exact hev
      · rename_i hodd
        rw [Int.tmod_eq_emod (by omega) (by norm_num)] at hodd
        omega
    have hw1 : wrap32 (inf + 6) = inf + 6 := wrap32_small _ (by omega) (by omega)
    rw [hw1]
    have hw2 : wrap32 (2 * (inf + 6)) = 2 * (inf + 6) := wrap32_small _ (by omega) (by omega)
    rw [hw2]
    rw [if_neg (show ¬ (¬ (wrap32 num_bits).tmod 2 = 0 ∧ inf ≤ 0) by
          rintro ⟨_, h2⟩
          omega),
        if_neg (show ¬ inf ≤ 0 by omega),
        if_neg (show ¬ 2 * (inf + 6) ≤ 0 by omega),
        if_neg (show ¬ 200000000 < 2 * (inf + 6) by omega)]
    have horig : (List.map bitOf (List.range inf.toNat)).length = inf.toNat := by
      rw [List.length_map, List.length_range]
    have hconv : convolutional_encode (List.map bitOf (List.range inf.toNat))
        = .ok (((inf.toNat : ℤ) + 6) * 2,
            encodeFrom 0 (List.map bitOf (List.range inf.toNat)
              ++ List.replicate 6 false)) := by
      unfold convolutional_encode
      rw [if_neg (by rw [horig]; omega), horig]
    rw [hconv]
    simp only []
    have hcast : (inf.toNat : ℤ) = inf := Int.toNat_of_nonneg (by omega)
    rw [if_pos (show ((inf.toNat : ℤ) + 6) * 2 = 2 * (inf + 6) by rw [hcast]; ring)]
    have hclen : (encodeFrom 0 (List.map bitOf (List.range inf.toNat)
        ++ List.replicate 6 false)).length = 2 * (inf.toNat + 6) := by
      rw [encodeFrom_length, List.length_append, horig, List.length_replicate]
    have hevenN : inf.toNat % 2 = 0 := by omega
    have hllrlen : ((addNoise noiseOf
        (List.map (fun q => qam16MapCoded q.1 q.2.1 q.2.2.1 q.2.2.2)
          (quadsB (encodeFrom 0 (List.map bitOf (List.range inf.toNat)
            ++ List.replicate 6 false))))).flatMap
        (llr16Block ex lg (1 / 4 * (2 * (p10 (snr_db / 10))⁻¹)))).length
        = 2 * (inf.toNat + 6) := by
      rw [flatMap_const_length 4 (llr16Block ex lg (1 / 4 * (2 * (p10 (snr_db / 10))⁻¹)))
            (fun _ => rfl), addNoise_length, List.length_map, quadsB_length, hclen]
      omega
    obtain ⟨out, hout, houtlen⟩ := decode_result_facts _ inf.toNat (by omega) hllrlen
    rw [hout]
    simp only []
    rw [if_neg (show ¬ (out = [] ∨ inf < (out.length : ℤ)) by
      push_neg
      constructor
      · intro h
        rw [h] at houtlen
        simp at houtlen
        omega
      · rw [houtlen, hcast])]
    rw [houtlen, min_self]
    have hden : (0 : ℚ) < (inf.toNat : ℚ) := by
      have h1 : 1 ≤ inf.toNat := by omega
      exact_mod_cast h1
    constructor
    · exact div_nonneg (Nat.cast_nonneg _) hden.le
    · rw [div_le_one hden]
      have hb : mismatches (List.map bitOf (List.range inf.toNat)) out ≤ inf.toNat := by
        calc mismatches (List.map bitOf (List.range inf.toNat)) out
            ≤ (List.map bitOf (List.range inf.toNat)).length := mismatches_le_left _ _
          _ = inf.toNat := horig
      exact_mod_cast hb


/-- C10: compute_ber_coded performs no SNR-range validation: for snr_db
outside [−50, +50] (a constraint the proof never even needs), a valid
mod_order and a valid info-bit count — ≥ 1, ≥ 2 for M = 16, within the
coded-length cap — it does not return the −1 out-of-range sentinel that
compute_ber returns: it runs the full coded simulation and returns a value
in [0, 1], whatever the RNG draws are. -/
theorem claim_C10_no_snr_validation (p10 ex lg : ℚ → ℚ) (bitOf : ℕ → Bool)
    (noiseOf : ℕ → ℚ) (mod_order : ℤ) (snr_db : ℚ) (num_bits : ℤ)
    (hm : mod_order = 2 ∨ mod_order = 4 ∨ mod_order = 16)
    (_hsnr : snr_db < -50 ∨ 50 < snr_db)
    (hlow : 1 ≤ num_bits) (h16 : mod_order = 16 → 2 ≤ num_bits)
    (hcap : 2 * (num_bits + 6) ≤ 200000000) :
    0 ≤ computeBerCoded p10 ex lg bitOf noiseOf mod_order snr_db num_bits ∧
    computeBerCoded p10 ex lg bitOf noiseOf mod_order snr_db num_bits ≤ 1 ∧
    computeBerCoded p10 ex lg bitOf noiseOf mod_order snr_db num_bits ≠ -1 := by
  have hw : wrap32 num_bits = num_bits := wrap32_small num_bits (by omega) (by omega)
  obtain ⟨h0, h1⟩ := computeBerCoded_sim_range p10 ex lg bitOf noiseOf mod_order snr_db
    num_bits hm (by omega) (fun h => by rw [hw]; exact h16 h)
    (by rw [hw]; split <;> omega)
  refine ⟨h0, h1, ?_⟩
  intro he
  rw [he] at h0
  norm_num at h0

/-- C10 witness at M = 2, snr_db = 51 (out of range), one info bit. -/
theorem claim_C10_witness :
    0 ≤ computeBerCoded (fun _ => 1) (fun _ => 1) (fun _ => 0) (fun _ => false)
        (fun _ => 0) 2 51 1 ∧
    computeBerCoded (fun _ => 1) (fun _ => 1) (fun _ => 0) (fun _ => false)
        (fun _ => 0) 2 51 1 ≤ 1 ∧
    computeBerCoded (fun _ => 1) (fun _ => 1) (fun _ => 0) (fun _ => false)
        (fun _ => 0) 2 51 1 ≠ -1 :=
  claim_C10_no_snr_validation (fun _ => 1) (fun _ => 1) (fun _ => 0) (fun _ => false)
    (fun _ => 0) 2 51 1 (by norm_num) (by norm_num) (by norm_num)
    (fun h => by norm_num at h) (by norm_num)

/-- C4 (amended): for every call with a valid mod_order whose adjusted
info-bit count n′ — num_bits cast to 32-bit int, minus one when M = 16 and
that value is odd — satisfies 2·(n′+6) > 2·10^8 while 2·(n′+6) still fits
in a 32-bit int (n′ ≤ 1073741817, the region where the source's `int`
computation of `coded_len` does not overflow), compute_ber_coded returns
the −0.25 sentinel without running the simulation (the result is a constant,
independent of all oracle streams). -/
theorem claim_C4_coded_cap (p10 ex lg : ℚ → ℚ) (bitOf : ℕ → Bool)
    (noiseOf : ℕ → ℚ) (mod_order : ℤ) (snr_db : ℚ) (num_bits : ℤ)
    (hm : mod_order = 2 ∨ mod_order = 4 ∨ mod_order = 16)
    (hcap : 200000000 < 2 * ((if mod_order = 16 ∧ (wrap32 num_bits).tmod 2 ≠ 0
        then wrap32 num_bits - 1 else wrap32 num_bits) + 6))
    (hint : 2 * ((if mod_order = 16 ∧ (wrap32 num_bits).tmod 2 ≠ 0
        then wrap32 num_bits - 1 else wrap32 num_bits) + 6) < 2 ^ 31) :
    computeBerCoded p10 ex lg bitOf noiseOf mod_order snr_db num_bits = -0.25 := by
  simp only [computeBerCoded]
  rw [if_neg (not_not_intro hm)]
  set inf : ℤ := if mod_order = 16 ∧ (wrap32 num_bits).tmod 2 ≠ 0
    then wrap32 num_bits - 1 else wrap32 num_bits with hinf
  have hw1 : wrap32 (inf + 6) = inf + 6 := wrap32_small _ (by omega) (by omega)
  rw [hw1]
  have hw2 : wrap32 (2 * (inf + 6)) = 2 * (inf + 6) := wrap32_small _ (by omega) (by omega)
  rw [hw2]
  rw [if_neg (show ¬ (mod_order = 16 ∧ (wrap32 num_bits).tmod 2 ≠ 0 ∧ inf ≤ 0) by
        rintro ⟨_, _, h3⟩
        omega),
      if_neg (show ¬ inf ≤ 0 by omega),
      if_neg (show ¬ 2 * (inf + 6) ≤ 0 by omega),
      if_pos (show 200000000 < 2 * (inf + 6) from hcap)]

/-- C4 counterexample: M = 16, num_bits = 10^8 − 5, whose implied coded
length 2·(num_bits + 6) = 2·10^8 + 2 exceeds the 2·10^8 cap; yet the 16-QAM
evenness adjustment first lowers the count to 10^8 − 6, the cap check then
passes, and the simulation runs and returns a BER ≥ 0 — not a negative
sentinel. -/
theorem claim_C4_counterexample :
    200000000 < 2 * ((99999995 : ℤ) + 6) ∧
    0 ≤ computeBerCoded (fun _ => 1) (fun _ => 1) (fun _ => 0) (fun _ => false)
        (fun _ => 0) 16 0 99999995 := by
  have hw : wrap32 99999995 = 99999995 :=
    wrap32_small 99999995 (by norm_num) (by norm_num)
  constructor
  · norm_num
  · exact (computeBerCoded_sim_range (fun _ => 1) (fun _ => 1) (fun _ => 0)
      (fun _ => false) (fun _ => 0) 16 0 99999995 (by norm_num)
      (by rw [hw]; norm_num) (fun _ => by rw [hw]; norm_num)
      (by
        rw [hw]
        rw [if_pos ⟨rfl, by decide⟩]
        norm_num)).1

/-- C4 amended witness: M = 2 with a cast value above the cap but inside
int range. -/
theorem claim_C4_witness :
    computeBerCoded (fun _ => 1) (fun _ => 1) (fun _ => 0) (fun _ => false)
      (fun _ => 0) 2 0 200000000 = -0.25 :=
  claim_C4_coded_cap (fun _ => 1) (fun _ => 1) (fun _ => 0) (fun _ => false)
    (fun _ => 0) 2 0 200000000 (by norm_num)
    (by
      rw [wrap32_small 200000000 (by norm_num) (by norm_num)]
      rw [if_neg (show ¬ ((2 : ℤ) = 16 ∧ (200000000 : ℤ).tmod 2 ≠ 0) by
        rintro ⟨h, _⟩; norm_num at h)]
      norm_num)
    (by
      rw [wrap32_small 200000000 (by norm_num) (by norm_num)]
      rw [if_neg (show ¬ ((2 : ℤ) = 16 ∧ (200000000 : ℤ).tmod 2 ≠ 0) by
        rintro ⟨h, _⟩; norm_num at h)]
      norm_num)

/-! ## 16-QAM LLR block versus the spec formulas (claim C5) -/

theorem lse2_eq_spec (ex lg : ℚ → ℚ) (hex0 : ex 0 = 1) (a b : ℚ) :
    lse2 ex lg a b = specLse2 ex lg a b := by
  unfold lse2 specLse2
  rcases le_total a b with h | h
  · rw [max_eq_right h]
    have habs : |a - b| = b - a := by
      rw [abs_sub_comm]
      exact abs_of_nonneg (by linarith)
    rw [habs, sub_self, hex0, show a - b = -(b - a) by ring,
        add_comm (ex (-(b - a))) 1]
  · rw [max_eq_left h]
    have habs : |a - b| = a - b := abs_of_nonneg (by linarith)
    rw [habs, sub_self, hex0, show b - a = -(a - b) by ring]

theorem fill_llrs_eq_spec (ex lg : ℚ → ℚ) (hex0 : ex 0 = 1) (n0 x : ℚ) :
    fill_llrs ex lg n0 x = specAxisLLRs ex lg n0 x := by
  simp only [fill_llrs, specAxisLLRs, lse2_eq_spec ex lg hex0]
  have hm : ∀ k : ℕ, -((x - qam_levels k) * (x - qam_levels k)) / n0
      = -(x - qam_levels k) ^ 2 / n0 := fun k => by ring
  rw [hm 0, hm 1, hm 2, hm 3]

/-- C5: on the 16-QAM coded path the per-symbol LLR generator is exactly the
spec's §4.6 formula block — de-normalisation by ×√10 (the reciprocal of the
stored 1/√10 double), the four metrics mₖ = −(x−ℓₖ)²/N₀ over the
Gray-index-ordered levels [+3,+1,−3,−1], msb-LLR = −(lse₂(m₀,m₁) −
lse₂(m₂,m₃)), lsb-LLR = −(lse₂(m₀,m₂) − lse₂(m₁,m₃)) per axis, emitted in
the order (msb_I, msb_Q, lsb_I, lsb_Q) — and the coded-path symbol mapper
`qam16MapCoded` consumes its four bits exactly as the modulator does
((b0,b2) → I, (b1,b3) → Q), so the emission order matches the order in which
the modulator consumed the encoder's bits. -/
theorem claim_C5_llr16_spec (ex lg : ℚ → ℚ) (n0 : ℚ) (hex0 : ex 0 = 1) :
    (∀ sym : Q2, llr16Block ex lg n0 sym = specLLR16Block ex lg n0 sym) ∧
    (∀ b0 b1 b2 b3 : Bool, qam16Map [b0, b1, b2, b3] = [qam16MapCoded b0 b1 b2 b3]) := by
  constructor
  · intro sym
    simp only [llr16Block, specLLR16Block, fill_llrs_eq_spec ex lg hex0, div_eq_mul_inv]
  · intro b0 b1 b2 b3
    rfl

/-- C5 witness at exp := const 1 (so exp 0 = 1), log := const 0, N₀ = 1,
symbol (1, 2). -/
theorem claim_C5_witness :
    llr16Block (fun _ => 1) (fun _ => 0) 1 ((1 : ℚ), (2 : ℚ))
      = specLLR16Block (fun _ => 1) (fun _ => 0) 1 ((1 : ℚ), (2 : ℚ)) ∧
    qam16Map [true, false, true, true] = [qam16MapCoded true false true true] :=
  ⟨(claim_C5_llr16_spec (fun _ => 1) (fun _ => 0) 1 rfl).1 ((1 : ℚ), (2 : ℚ)),
   (claim_C5_llr16_spec (fun _ => 1) (fun _ => 0) 1 rfl).2 true false true true⟩
